import Mathlib

/-!
Shallow embedding of the core algorithms of the `pdf_translator_poc` repository
(`src/text_fitter.py` and `src/extractor.py`), together with theorems settling
the specification claims about them.

Modelling conventions:
* Python floats are modelled as exact rationals (`ℚ`).
* Python strings are modelled as character lists (`Str := List Char`); Python
  indexing/slicing is character based, which matches `List Char` exactly.
* Python `sorted` / `list.sort` are stable sorts; they are modelled by
  `List.insertionSort` with a `≤`-by-key relation, which is also a stable sort
  (the result of a stable sort by a total preorder is unique, so the choice of
  stable algorithm is immaterial).
* Python dictionaries keyed by the string `f"{font_name}_{font_size}"` are
  modelled as insertion-ordered association lists keyed by the pair
  `(font_name, font_size)`; the Python key string is injective in that pair
  because the decimal representation of a float never contains an underscore.
* Fallible or falsy-tested Python values (`None`, `0`, `""`) are modelled with
  `Option` plus explicit truthiness helpers.
-/


abbrev Str := List Char

/-- Helper for `pySplit`: walks the character list keeping the (reversed)
current word in `acc`; words are emitted at whitespace boundaries and at the
end. Mirrors Python `str.split()` with no separator argument. -/
def splitWsAux : Str → Str → List Str
  | acc, [] => if acc = [] then [] else [acc.reverse]
  | acc, c :: cs =>
    if c.isWhitespace then
      (if acc = [] then [] else [acc.reverse]) ++ splitWsAux [] cs
    else
      splitWsAux (c :: acc) cs

/-- Python `text.split()` (no argument): split on runs of whitespace, dropping
empty pieces. -/
def pySplit (s : Str) : List Str :=
  splitWsAux [] s

/-- Python `int()` applied to a float/rational value: truncation toward zero. -/
def pyInt (q : ℚ) : ℤ :=
  if q < 0 then ⌈q⌉ else ⌊q⌋

/-- Truthiness of the optional `pdf_standard_char_width` argument in
`text_fitter.py` (`if pdf_standard_char_width:`): `None` and `0.0` are falsy. -/
def scwTruthy : Option ℚ → Bool
  | none => false
  | some w => decide (w ≠ 0)

/-- The value carried by the optional `pdf_standard_char_width` argument. -/
def scwVal : Option ℚ → ℚ
  | none => 0
  | some w => w

/-- Embedding of `estimate_text_width` (`text_fitter.py`): width is
`len(text) * pdf_standard_char_width` when that argument is truthy, else the
fallback `len(text) * (font_size * 0.6)`.  The `font_name` parameter of the
source is unused there and omitted here. -/
def estimate_text_width (text : Str) (font_size : ℚ) (scw : Option ℚ) : ℚ :=
  if scwTruthy scw then (text.length : ℚ) * scwVal scw
  else (text.length : ℚ) * (font_size * (6/10))

/-- Embedding of `calculate_max_chars_per_line` (`text_fitter.py`).  In the
source, `avg_char_width` is computed by measuring a fixed sample string with
`estimate_text_width` and no PDF metrics, which yields exactly
`font_size * 0.6` per character (`len(sample) * font_size * 0.6 / len(sample)`);
the `total_width <= 0` fallback also yields `font_size * 0.6`.  The division by
zero that Python would raise for `font_size = 0` is modelled by total division
(`x / 0 = 0` in `ℚ`); no claim is evaluated at `font_size = 0`. -/
def calculate_max_chars_per_line (available_width font_size : ℚ) : ℤ :=
  max 5 (pyInt ((available_width * (99/100)) / (font_size * (6/10))))

/-- Embedding of `break_long_word` (`text_fitter.py`): returns the portion of
an over-long word that fits (with a trailing hyphen), or `none`. -/
def break_long_word (word : Str) (available_width font_size : ℚ)
    (scw : Option ℚ) : Option Str :=
  if word.length ≤ 1 then none
  else
    let max_chars : ℤ :=
      if scwTruthy scw then pyInt ((available_width * (96/100)) / scwVal scw)
      else calculate_max_chars_per_line available_width font_size
    let max_word_chars : ℤ := max_chars - 1
    if max_word_chars ≤ 0 then some (word.take 1)
    else if max_word_chars < (word.length : ℤ) then
      some (word.take max_word_chars.toNat ++ ['-'])
    else none

/-- Python `broken_part.rstrip('-')`: remove all trailing hyphens. -/
def rstripHyphen (s : Str) : Str :=
  (s.reverse.dropWhile (fun c => c = '-')).reverse

/-- Embedding of `TextFittingResult` (`text_fitter.py`).  The constructor's
`lines if lines else []` normalisation is the identity on our representation. -/
structure TextFittingResult where
  fitted_text : Str
  scaled_font_size : ℚ
  lines : List Str
  is_truncated : Bool
  fit_method : String
deriving Repr, DecidableEq

/-- Mutable loop state of the word loop inside `wrap_text`. -/
structure WrapState where
  lines : List Str
  current_line : Str
  is_truncated : Bool
deriving Repr, DecidableEq

/-- One iteration of the `for word in words` loop of `wrap_text`
(`text_fitter.py`). The boolean result records whether the loop `break`s. -/
def wrapStep (available_width font_size : ℚ) (scw : Option ℚ) (max_lines : ℕ)
    (st : WrapState) (word : Str) : WrapState × Bool :=
  let test_line := st.current_line ++ (if st.current_line = [] then [] else [' ']) ++ word
  let test_width := estimate_text_width test_line font_size scw
  let safety_width := available_width * (99/100)
  if test_width ≤ safety_width then
    ({ st with current_line := test_line }, false)
  else if st.current_line ≠ [] then
    let lines' := st.lines ++ [st.current_line]
    if max_lines ≤ lines'.length then
      (⟨lines', word, true⟩, true)
    else
      (⟨lines', word, st.is_truncated⟩, false)
  else if 1 < word.length then
    match break_long_word word available_width font_size scw with
    | some broken_part =>
      ({ st with
          lines := st.lines ++ [broken_part],
          current_line := word.drop (rstripHyphen broken_part).length }, false)
    | none => ({ st with current_line := word }, false)
  else ({ st with current_line := word }, false)

/-- The full word loop of `wrap_text`; returns the state at loop exit together
with the words left unprocessed by an early `break`. -/
def wrapLoop (available_width font_size : ℚ) (scw : Option ℚ) (max_lines : ℕ) :
    WrapState → List Str → WrapState × List Str
  | st, [] => (st, [])
  | st, w :: ws =>
    match wrapStep available_width font_size scw max_lines st w with
    | (st', true) => (st', ws)
    | (st', false) => wrapLoop available_width font_size scw max_lines st' ws

/-- Python `min` over a list (used on non-empty lists in the source). -/
def listMinQ : List ℚ → ℚ
  | [] => 0
  | x :: xs => xs.foldl min x

/-- Python `max` over a list (used on non-empty lists in the source). -/
def listMaxQ : List ℚ → ℚ
  | [] => 0
  | x :: xs => xs.foldl max x

/-- The redistribution loop inside `optimize_text_redistribution`
(`text_fitter.py`): greedy re-wrap of all words with a 96% safety margin.
Returns the accumulated lines and the final `current_line`. -/
def redistributeLoop (safety_width font_size : ℚ) (scw : Option ℚ) :
    Str → List Str → List Str × Str
  | current_line, [] => ([], current_line)
  | current_line, w :: ws =>
    let test_line := current_line ++ (if current_line = [] then [] else [' ']) ++ w
    let test_width := estimate_text_width test_line font_size scw
    if test_width ≤ safety_width then
      redistributeLoop safety_width font_size scw test_line ws
    else if current_line ≠ [] then
      let rest := redistributeLoop safety_width font_size scw w ws
      (current_line :: rest.1, rest.2)
    else
      let rest := redistributeLoop safety_width font_size scw [] ws
      (w :: rest.1, rest.2)

/-- Embedding of `optimize_text_redistribution` (`text_fitter.py`).  The
source's `underutilized_lines` is a list of indices; only its emptiness is
tested, which coincides with the emptiness of the filtered utilization list
used here. -/
def optimize_text_redistribution (lines : List Str) (available_width font_size : ℚ)
    (scw : Option ℚ) : Option (List Str) :=
  if lines.length < 2 then none
  else
    let utilizations := lines.map
      (fun l => estimate_text_width l font_size scw / available_width * 100)
    let min_util := listMinQ utilizations
    let max_util := listMaxQ utilizations
    if max_util - min_util < 20 then none
    else if utilizations.filter (fun u => decide (u < 80)) = [] then none
    else
      let all_words := lines.flatMap pySplit
      let safety_width := available_width * (96/100)
      let run := redistributeLoop safety_width font_size scw [] all_words
      let optimized_lines := run.1 ++ (if run.2 = [] then [] else [run.2])
      if optimized_lines.length ≤ lines.length then
        let new_utilizations := optimized_lines.map
          (fun l => estimate_text_width l font_size scw / available_width * 100)
        if min_util < listMinQ new_utilizations then some optimized_lines else none
      else none

/-- Post-loop processing of `wrap_text`: flush the final `current_line`,
fall back to the raw text when no lines were produced, and attempt
redistribution when more than one non-truncated line exists. -/
def wrapFinish (text : Str) (available_width font_size : ℚ) (scw : Option ℚ)
    (max_lines : ℕ) (st : WrapState) : TextFittingResult :=
  let pair :=
    if st.current_line ≠ [] ∧ st.lines.length < max_lines then
      (st.lines ++ [st.current_line], st.is_truncated)
    else if st.current_line ≠ [] ∧ max_lines ≤ st.lines.length then
      (st.lines, true)
    else (st.lines, st.is_truncated)
  let lines1 := if pair.1 = [] ∧ text ≠ [] then [text] else pair.1
  let lines2 :=
    if 1 < lines1.length ∧ pair.2 = false then
      match optimize_text_redistribution lines1 available_width font_size scw with
      | some ol => ol
      | none => lines1
    else lines1
  ⟨List.intercalate ['\x0a'] lines2, font_size, lines2, pair.2, "precise_wrap"⟩

/-- Embedding of `wrap_text` (`text_fitter.py`): greedy word wrap of `text`
into at most `max_lines` lines of estimated width at most
`0.99 * available_width`.  The unused `font_name` parameter is omitted. -/
def wrap_text (text : Str) (available_width : ℚ) (max_lines : ℕ)
    (font_size : ℚ) (scw : Option ℚ) : TextFittingResult :=
  if text = [] then ⟨[], font_size, [], false, "precise_wrap"⟩
  else
    let words := pySplit text
    if words = [] then ⟨[], font_size, [], false, "precise_wrap"⟩
    else
      let run := wrapLoop available_width font_size scw max_lines ⟨[], [], false⟩ words
      wrapFinish text available_width font_size scw max_lines run.1

/-- One buffered width sample in `extract_font_metrics` (`extractor.py`). -/
structure SampleEntry where
  width : ℚ
  char : Str
  sample_index : ℕ
deriving Repr, DecidableEq

/-- Per-font-variant metrics record of `extract_font_metrics`
(`extractor.py`). -/
structure FontMetrics where
  font_name : String
  font_size : ℚ
  standard_char_width : Option ℚ
  char_samples : List SampleEntry
  sample_count : ℕ
deriving Repr, DecidableEq

/-- Embedding of `fit_text_to_bounds` (`text_fitter.py`).  The source keeps the
original font size on every path; `available_height`, `min_font_size` and
`line_height_ratio` are unused by the source and omitted after
`available_height`.  Python's `if not num_lines: num_lines = 1` maps `None`
and `0` to `1`. -/
def fit_text_to_bounds (text : Str) (available_width available_height font_size : ℚ)
    (num_lines : Option ℕ) (font_metrics : Option FontMetrics) : TextFittingResult :=
  if text = [] then ⟨[], font_size, [], false, "empty"⟩
  else
    let n : ℕ := match num_lines with
      | none => 1
      | some k => if k = 0 then 1 else k
    if n = 1 then ⟨text, font_size, [text], false, "single_line"⟩
    else
      let scw : Option ℚ := match font_metrics with
        | none => none
        | some m => m.standard_char_width
      let result := wrap_text text available_width n font_size scw
      { result with scaled_font_size := font_size, fit_method := "multi_line" }

/-- Bounding box record used in paragraph dictionaries. -/
structure BoundingBox where
  x0 : ℚ
  y0 : ℚ
  x1 : ℚ
  y1 : ℚ
deriving Repr, DecidableEq

/-- Input paragraph dictionary of `process_paragraphs` (`text_fitter.py`).
Fields read by the source are explicit; `extra` stands for all remaining
dictionary entries, which `paragraph.copy()` carries through unchanged. -/
structure Paragraph where
  text : Str
  font_name : Option String
  font_size : Option ℚ
  width : Option ℚ
  height : Option ℚ
  bounding_box : Option BoundingBox
  num_lines : Option ℕ
  font_metrics : Option FontMetrics
  extra : String
deriving Repr, DecidableEq

/-- Python truthiness of an optional number (`None` and `0` are falsy). -/
def qTruthy : Option ℚ → Bool
  | none => false
  | some q => decide (q ≠ 0)

/-- Python `x or d` for an optional number `x`: `d` when `x` is falsy. -/
def pyOrQ : Option ℚ → ℚ → ℚ
  | none, d => d
  | some q, d => if q = 0 then d else q

/-- Width computed by `process_paragraphs`: use the explicit `width` entry if
truthy, else fall back to the bounding box (only consulted when `width` or
`height` is falsy and a bounding box exists), else `0`. -/
def paragraphWidth (p : Paragraph) : ℚ :=
  match p.bounding_box with
  | some bb =>
    if ¬ qTruthy p.width ∨ ¬ qTruthy p.height then pyOrQ p.width (bb.x1 - bb.x0)
    else pyOrQ p.width 0
  | none => pyOrQ p.width 0

/-- Height computed by `process_paragraphs`, symmetric to `paragraphWidth`. -/
def paragraphHeight (p : Paragraph) : ℚ :=
  match p.bounding_box with
  | some bb =>
    if ¬ qTruthy p.width ∨ ¬ qTruthy p.height then pyOrQ p.height (bb.y1 - bb.y0)
    else pyOrQ p.height 0
  | none => pyOrQ p.height 0

/-- Output record of `process_paragraphs`: the copied paragraph (with `text`
replaced on the fitted path) plus the fitting fields added by the source.
Python adds the `is_truncated` key only when it is true; absence is modelled
as `false`. -/
structure FittedParagraph where
  para : Paragraph
  fitted_lines : List Str
  fit_method : String
  scaled_font_size : ℚ
  is_truncated : Bool
deriving Repr, DecidableEq

/-- Body of the `for paragraph in paragraphs` loop of `process_paragraphs`
(`text_fitter.py`): skip (but keep) empty/zero-sized paragraphs, fit the
rest. -/
def processOneParagraph (p : Paragraph) : FittedParagraph :=
  let text := p.text
  let font_size := p.font_size.getD 12
  let width := paragraphWidth p
  let height := paragraphHeight p
  if text = [] ∨ width = 0 ∨ height = 0 then
    ⟨p, [], "not_fitted", font_size, false⟩
  else
    let num_lines := p.num_lines.getD 1
    let fr := fit_text_to_bounds text width height font_size (some num_lines) p.font_metrics
    ⟨{ p with text := fr.fitted_text }, fr.lines, fr.fit_method,
      fr.scaled_font_size, fr.is_truncated⟩

/-- Embedding of `process_paragraphs` (`text_fitter.py`): one output record is
appended per input paragraph.  The `line_height_ratio` parameter is unused on
the modelled paths and omitted. -/
def process_paragraphs : List Paragraph → List FittedParagraph
  | [] => []
  | p :: ps => processOneParagraph p :: process_paragraphs ps

/-- Character dictionary as consumed by `extractor.py`.  The coordinates are
accessed by direct indexing in the source (they are always present in
`pdfplumber` output); `text`, `fontname` and `size` are read with `.get`
defaults and are therefore optional here. -/
structure PChar where
  x0 : ℚ
  y0 : ℚ
  x1 : ℚ
  y1 : ℚ
  text : Option Str
  fontname : Option String
  size : Option ℚ
deriving Repr, DecidableEq

/-- Font-variant key `f"{font_name}_{font_size}"` of `extract_font_metrics`,
modelled as the pair (the Python key string is injective in the pair because a
float's decimal representation never contains an underscore). -/
abbrev FontKey := String × ℚ

/-- Key of the font variant of a character (`extractor.py` defaults:
`"Unknown"` and `12`). -/
def charFontKey (c : PChar) : FontKey :=
  (c.fontname.getD "Unknown", c.size.getD 12)

/-- Python `char_text and char_text.strip()` truthiness: the text contains at
least one non-whitespace character. -/
def strTruthyStripped (s : Str) : Bool :=
  s.any (fun c => ! c.isWhitespace)

/-- Insertion-ordered association map used for the font metrics dictionary. -/
abbrev MetricsMap := List (FontKey × FontMetrics)

/-- Dictionary lookup on the metrics map. -/
def mLookup : MetricsMap → FontKey → Option FontMetrics
  | [], _ => none
  | e :: m, k => if e.1 = k then some e.2 else mLookup m k

/-- Dictionary update on the metrics map: apply `f` to the entry (entries) with
the given key, keeping order. -/
def mUpdate (f : FontMetrics → FontMetrics) : MetricsMap → FontKey → MetricsMap
  | [], _ => []
  | e :: m, k => if e.1 = k then (e.1, f e.2) :: mUpdate f m k else e :: mUpdate f m k

/-- The per-character metrics update of `extract_font_metrics`
(`extractor.py`): for a non-whitespace character, optionally buffer its width
as a sample (when within `[0.2, 1.2] * font_size` and the width is not yet
frozen), freeze the median once 5 samples exist, and always bump
`sample_count`.  The source's `median_sample = next(...)` is used only for a
log line and cannot fail (the median is drawn from the sample widths). -/
def updCharMetrics (font_size : ℚ) (c : PChar) (me : FontMetrics) : FontMetrics :=
  let char_text := c.text.getD []
  if strTruthyStripped char_text then
    let actual_width := c.x1 - c.x0
    let me1 :=
      if me.standard_char_width = none ∧ me.char_samples.length < 10 then
        if font_size * (2/10) ≤ actual_width ∧ actual_width ≤ font_size * (12/10) then
          let samples := me.char_samples ++ [⟨actual_width, char_text, me.sample_count⟩]
          if 5 ≤ samples.length then
            let widths := List.insertionSort (fun a b : ℚ => a ≤ b)
              (samples.map SampleEntry.width)
            let median_width := (widths[widths.length / 2]?).getD 0
            { me with standard_char_width := some median_width, char_samples := [] }
          else { me with char_samples := samples }
        else me
      else me
    { me1 with sample_count := me1.sample_count + 1 }
  else me

/-- One iteration of the character loop of `extract_font_metrics`: create the
entry for the character's font variant if absent, then update it. -/
def procChar (m : MetricsMap) (c : PChar) : MetricsMap :=
  let key := charFontKey c
  let m1 := if mLookup m key = none then m ++ [(key, ⟨key.1, key.2, none, [], 0⟩)] else m
  mUpdate (updCharMetrics key.2 c) m1 key

/-- Embedding of `extract_font_metrics` (`extractor.py`). -/
def extract_font_metrics (char_data : List PChar) : MetricsMap :=
  char_data.foldl procChar []

/-- The per-entry merge step of the per-page metrics merge in
`extract_text_metadata` (`extractor.py`): adopt a frozen width the global map
lacks, else concatenate sample buffers while both are unfrozen; `sample_count`
always sums. -/
def mergeEntry (g : MetricsMap) (e : FontKey × FontMetrics) : MetricsMap :=
  match mLookup g e.1 with
  | none => g ++ [e]
  | some existing =>
    let ex1 :=
      if existing.standard_char_width = none ∧ e.2.standard_char_width ≠ none then
        { existing with standard_char_width := e.2.standard_char_width }
      else if existing.standard_char_width = none then
        { existing with char_samples := existing.char_samples ++ e.2.char_samples }
      else existing
    mUpdate (fun _ => { ex1 with sample_count := ex1.sample_count + e.2.sample_count }) g e.1

/-- The metrics-merging loop of `extract_text_metadata` (`extractor.py`):
fold a page's metrics map into the running global map. -/
def merge_font_metrics (global page : MetricsMap) : MetricsMap :=
  page.foldl mergeEntry global

/-- The `sample_count` recorded for a key, `0` when the key is absent. -/
def sampleCountOf (m : MetricsMap) (k : FontKey) : ℕ :=
  match mLookup m k with
  | none => 0
  | some me => me.sample_count

/-- The frozen `standard_char_width` recorded for a key, if any. -/
def scwOf (m : MetricsMap) (k : FontKey) : Option ℚ :=
  match mLookup m k with
  | none => none
  | some me => me.standard_char_width

/-- One candidate gap between horizontally adjacent characters, as built by
`detect_columns_by_gaps` (`extractor.py`); `y0`/`y1` model the `y_range`
tuple. -/
structure GapInfo where
  position : ℚ
  size : ℚ
  y0 : ℚ
  y1 : ℚ
  prev_x1 : ℚ
  curr_x0 : ℚ
deriving Repr, DecidableEq

/-- Python `sorted(chars, key=lambda c: c["x0"])` (stable). -/
def charsSortedByX0 (chars : List PChar) : List PChar :=
  List.insertionSort (fun a b : PChar => a.x0 ≤ b.x0) chars

/-- The candidate-gap scan of `detect_columns_by_gaps`: for each adjacent pair
of x-sorted characters, keep the gap when it exceeds
`1.5 * (0.6 * size_of_left_char)`. -/
def gapsOf (chars : List PChar) : List GapInfo :=
  let sorted_chars := charsSortedByX0 chars
  (sorted_chars.zip sorted_chars.tail).filterMap (fun pc =>
    let prev_char := pc.1
    let curr_char := pc.2
    let gap_size := curr_char.x0 - prev_char.x1
    let min_gap_threshold := (prev_char.size.getD 12 * (6/10)) * (3/2)
    if min_gap_threshold < gap_size then
      some ⟨(prev_char.x1 + curr_char.x0) / 2, gap_size,
            min prev_char.y0 curr_char.y0, max prev_char.y1 curr_char.y1,
            prev_char.x1, curr_char.x0⟩
    else none)

/-- Python `sorted(gaps, key=lambda g: g["position"])` (stable). -/
def sortGapsByPosition (gaps : List GapInfo) : List GapInfo :=
  List.insertionSort (fun a b : GapInfo => a.position ≤ b.position) gaps

/-- Grouping walk of `detect_columns_by_gaps`: successive gaps whose positions
are within 30pt of the last gap added join the current group.  `currentRev`
holds the current group in reverse, `lastPos` the position of its last gap. -/
def groupGapsAux : List GapInfo → ℚ → List GapInfo → List (List GapInfo)
  | currentRev, _, [] => [currentRev.reverse]
  | currentRev, lastPos, g :: gs =>
    if |g.position - lastPos| < 30 then groupGapsAux (g :: currentRev) g.position gs
    else currentRev.reverse :: groupGapsAux [g] g.position gs

/-- Merge position-sorted gaps into groups of nearby gaps. -/
def groupGaps : List GapInfo → List (List GapInfo)
  | [] => []
  | g :: gs => groupGapsAux [g] g.position gs

/-- Average `position` of a gap group. -/
def groupAvgPosition (g : List GapInfo) : ℚ :=
  (g.map GapInfo.position).sum / (g.length : ℚ)

/-- Average `size` of a gap group. -/
def groupAvgSize (g : List GapInfo) : ℚ :=
  (g.map GapInfo.size).sum / (g.length : ℚ)

/-- Combined vertical coverage `max(y_range[1]) - min(y_range[0])` of a gap
group. -/
def groupYCoverage (g : List GapInfo) : ℚ :=
  listMaxQ (g.map GapInfo.y1) - listMinQ (g.map GapInfo.y0)

/-- Content height `max(y1) - min(y0)` over all characters (`page_height` in
`detect_columns_by_gaps`). -/
def contentHeight (chars : List PChar) : ℚ :=
  listMaxQ (chars.map PChar.y1) - listMinQ (chars.map PChar.y0)

/-- Acceptance test of `detect_columns_by_gaps` for a merged gap group:
`(avg_size > 10 or avg_size > page_width * 0.05) and
 total_y_coverage > page_height * 0.1`. -/
def columnGapAccepted (page_width page_height : ℚ) (g : List GapInfo) : Bool :=
  (decide (10 < groupAvgSize g) || decide (page_width * (5/100) < groupAvgSize g))
    && decide (page_height * (1/10) < groupYCoverage g)

/-- Embedding of `detect_columns_by_gaps` (`extractor.py`).  The source builds
`column_gaps` as records and then sorts them by `position` (their
`avg_position`) before appending each `position`; sorting the mapped average
positions directly is the same list of boundary values. -/
def detect_columns_by_gaps (chars : List PChar) (page_width : ℚ) : List ℚ :=
  if chars = [] then [0, page_width]
  else
    let gaps := gapsOf chars
    if gaps = [] then [0, page_width]
    else
      let gap_groups := groupGaps (sortGapsByPosition gaps)
      let page_height := contentHeight chars
      let column_gaps := gap_groups.filter (columnGapAccepted page_width page_height)
      [0] ++ List.insertionSort (fun a b : ℚ => a ≤ b) (column_gaps.map groupAvgPosition)
        ++ [page_width]

/-- Text-group record as consumed by the reading-order sorter
(`extractor.py`); `payload` stands for the fields the sorter does not read
(`text`, `bbox`, `characters`). -/
structure TextGroup where
  center_x : ℚ
  center_y : ℚ
  payload : String
deriving Repr, DecidableEq

/-- Embedding of `calculate_reading_order_score` (`extractor.py`):
`(page_height - center_y) * 1000 + center_x`. -/
def calculate_reading_order_score (g : TextGroup) (page_height : ℚ) : ℚ :=
  (page_height - g.center_y) * 1000 + g.center_x

/-- Embedding of `sort_groups_by_reading_order` (`extractor.py`):
`sorted(groups, key=score, reverse=True)`, a stable descending sort by score.
The source also stores the score into each group dictionary; only the order is
modelled. -/
def sort_groups_by_reading_order (groups : List TextGroup) (page_height : ℚ) :
    List TextGroup :=
  List.insertionSort
    (fun a b => calculate_reading_order_score b page_height ≤
      calculate_reading_order_score a page_height) groups


/-- A line is good when its estimated width is within the 99% safety margin or
it consists of a single word (no whitespace). -/
def goodLine (aw fs : ℚ) (scw : Option ℚ) (l : Str) : Prop :=
  estimate_text_width l fs scw ≤ aw * (99/100) ∨ ∀ c ∈ l, c.isWhitespace = false

/-- The width-range invariant: every frozen width and every buffered sample of
an entry lies within `[0.2, 1.2]` of the entry's font size. -/
def metricsWidthInv (m : MetricsMap) : Prop :=
  ∀ e ∈ m, (∀ w : ℚ, e.2.standard_char_width = some w →
      e.1.2 * (2/10) ≤ w ∧ w ≤ e.1.2 * (12/10)) ∧
    (∀ s ∈ e.2.char_samples, e.1.2 * (2/10) ≤ s.width ∧ s.width ≤ e.1.2 * (12/10))


/-- Words produced by `splitWsAux` are non-empty and contain no whitespace,
provided the accumulator contains no whitespace. -/
theorem splitWsAux_sound (s : Str) : ∀ acc : Str, (∀ c ∈ acc, c.isWhitespace = false) →
    ∀ w ∈ splitWsAux acc s, w ≠ [] ∧ ∀ c ∈ w, c.isWhitespace = false := by
  induction s with
  | nil =>
    intro acc hacc w hw
    simp only [splitWsAux] at hw
    split at hw
    · simp at hw
    · next h =>
      simp only [List.mem_singleton] at hw
      subst hw
      refine ⟨by simpa using h, fun c hc => hacc c (List.mem_reverse.mp hc)⟩
  | cons c cs ih =>
    intro acc hacc w hw
    simp only [splitWsAux] at hw
    split at hw
    · rcases List.mem_append.mp hw with h1 | h2
      · split at h1
        · simp at h1
        · next h =>
          simp only [List.mem_singleton] at h1
          subst h1
          refine ⟨by simpa using h, fun d hd => hacc d (List.mem_reverse.mp hd)⟩
      · exact ih [] (by simp) w h2
    · next h =>
      refine ih (c :: acc) ?_ w hw
      intro d hd
      rcases List.mem_cons.mp hd with rfl | hd
      · simpa using h
      · exact hacc d hd

/-- Words produced by `pySplit` are non-empty and contain no whitespace. -/
theorem pySplit_sound (s : Str) :
    ∀ w ∈ pySplit s, w ≠ [] ∧ ∀ c ∈ w, c.isWhitespace = false :=
  splitWsAux_sound s [] (by simp)

/-- Stripping trailing hyphens never lengthens a string. -/
theorem rstripHyphen_length_le (s : Str) : (rstripHyphen s).length ≤ s.length := by
  unfold rstripHyphen
  calc (s.reverse.dropWhile (fun c => c = '-')).reverse.length
      = (s.reverse.dropWhile (fun c => c = '-')).length := by simp
    _ ≤ s.reverse.length := (List.dropWhile_sublist _).length_le
    _ = s.length := by simp

/-- Stripping trailing hyphens of `t ++ "-"` yields at most `t.length`
characters. -/
theorem rstripHyphen_append_hyphen_length (t : Str) :
    (rstripHyphen (t ++ ['-'])).length ≤ t.length := by
  unfold rstripHyphen
  have h1 : (t ++ ['-']).reverse = '-' :: t.reverse := by simp
  rw [h1]
  have h2 : List.dropWhile (fun c => c = '-') ('-' :: t.reverse) =
      List.dropWhile (fun c => c = '-') t.reverse := by
    rw [List.dropWhile_cons_of_pos]
    simp
  rw [h2]
  calc (t.reverse.dropWhile (fun c => c = '-')).reverse.length
      = (t.reverse.dropWhile (fun c => c = '-')).length := by simp
    _ ≤ t.reverse.length := (List.dropWhile_sublist _).length_le
    _ = t.length := by simp

/-- Case analysis core for `break_long_word_remainder_lt`, with the computed
character budget generalized. -/
theorem break_long_word_remainder_lt_aux (word : Str) (mwc : ℤ) (bp : Str)
    (hlen : 1 < word.length)
    (hbp : (if mwc ≤ 0 then some (word.take 1)
            else if mwc < (word.length : ℤ) then some (word.take mwc.toNat ++ ['-'])
            else (none : Option Str)) = some bp) :
    (rstripHyphen bp).length < word.length := by
  split at hbp
  · injection hbp with h
    subst h
    calc (rstripHyphen (word.take 1)).length ≤ (word.take 1).length :=
        rstripHyphen_length_le _
      _ ≤ 1 := by simp
      _ < word.length := hlen
  · split at hbp
    · next h1 h2 =>
      injection hbp with h
      subst h
      have h3 : mwc.toNat < word.length := by omega
      calc (rstripHyphen (word.take mwc.toNat ++ ['-'])).length
          ≤ (word.take mwc.toNat).length := rstripHyphen_append_hyphen_length _
        _ ≤ mwc.toNat := by simp
        _ < word.length := h3
    · cases hbp

/-- The part of a broken word consumed by `wrap_text` (the broken part without
its trailing hyphen) is strictly shorter than the word. -/
theorem break_long_word_remainder_lt (word : Str) (aw fs : ℚ) (scw : Option ℚ) (bp : Str)
    (hlen : 1 < word.length) (hbp : break_long_word word aw fs scw = some bp) :
    (rstripHyphen bp).length < word.length := by
  unfold break_long_word at hbp
  rw [if_neg (by omega)] at hbp
  exact break_long_word_remainder_lt_aux word _ bp hlen hbp

/-- A broken part returned by `break_long_word` contains no whitespace when the
word does not. -/
theorem break_long_word_noWS_aux (word : Str) (mwc : ℤ) (bp : Str)
    (hw : ∀ c ∈ word, c.isWhitespace = false)
    (hbp : (if mwc ≤ 0 then some (word.take 1)
            else if mwc < (word.length : ℤ) then some (word.take mwc.toNat ++ ['-'])
            else (none : Option Str)) = some bp) :
    ∀ c ∈ bp, c.isWhitespace = false := by
  split at hbp
  · injection hbp with h
    subst h
    exact fun c hc => hw c (List.take_subset _ _ hc)
  · split at hbp
    · injection hbp with h
      subst h
      intro c hc
      rcases List.mem_append.mp hc with h1 | h2
      · exact hw c (List.take_subset _ _ h1)
      · simp only [List.mem_singleton] at h2
        subst h2
        decide
    · cases hbp

/-- The broken part of a word contains no whitespace when the word does not. -/
theorem break_long_word_noWS (word : Str) (aw fs : ℚ) (scw : Option ℚ) (bp : Str)
    (hw : ∀ c ∈ word, c.isWhitespace = false)
    (hbp : break_long_word word aw fs scw = some bp) :
    ∀ c ∈ bp, c.isWhitespace = false := by
  by_cases hlen : word.length ≤ 1
  · unfold break_long_word at hbp
    rw [if_pos hlen] at hbp
    cases hbp
  · unfold break_long_word at hbp
    rw [if_neg hlen] at hbp
    exact break_long_word_noWS_aux word _ bp hw hbp

/-- After processing a non-empty word, the current line is non-empty. -/
theorem wrapStep_current_ne_nil (aw fs : ℚ) (scw : Option ℚ) (ml : ℕ) (st : WrapState)
    (w : Str) (hw : w ≠ []) :
    (wrapStep aw fs scw ml st w).1.current_line ≠ [] := by
  simp only [wrapStep]
  by_cases hc : st.current_line = []
  · simp only [hc, if_pos rfl, ite_true, List.nil_append, ne_eq, not_true_eq_false, if_false]
    split
    · simpa using hw
    · split
      · next hlen =>
        split
        · next bp hbp =>
          have h1 : (rstripHyphen bp).length < w.length :=
            break_long_word_remainder_lt w aw fs scw bp hlen hbp
          have h2 : 0 < ((w.drop (rstripHyphen bp).length).length) := by
            simp only [List.length_drop]
            omega
          simpa using List.length_pos.mp h2
        · simpa using hw
      · simpa using hw
  · simp only [hc, if_neg hc, ite_false, ne_eq, not_false_eq_true, if_true]
    split
    · simp [hc]
    · split <;> simpa using hw

/-- Line-count bookkeeping of one loop step, assuming a non-empty current
line (which rules out the unchecked word-breaking append). -/
theorem wrapStep_lines_le (aw fs : ℚ) (scw : Option ℚ) (ml : ℕ) (st : WrapState)
    (w : Str) (hcur : st.current_line ≠ []) (hlen : st.lines.length ≤ ml) :
    ((wrapStep aw fs scw ml st w).2 = false →
      (wrapStep aw fs scw ml st w).1.lines.length ≤ ml) ∧
    ((wrapStep aw fs scw ml st w).2 = true →
      ml ≤ (wrapStep aw fs scw ml st w).1.lines.length ∧
      (wrapStep aw fs scw ml st w).1.lines.length ≤ ml + 1 ∧
      (wrapStep aw fs scw ml st w).1.is_truncated = true) := by
  simp only [wrapStep, if_neg hcur, ite_false, ne_eq, not_false_eq_true, if_true]
  split
  · exact ⟨fun _ => hlen, by simp⟩
  · split
    · next hml =>
      simp only [List.length_append, List.length_singleton] at hml ⊢
      exact ⟨by simp, fun _ => ⟨hml, by omega, by trivial⟩⟩
    · next hml =>
      simp only [List.length_append, List.length_singleton] at hml ⊢
      exact ⟨fun _ => by omega, by simp⟩

/-- Truncation bookkeeping of one loop step: the invariant that a truncated
state has at least `max_lines` lines is preserved. -/
theorem wrapStep_truncated_inv (aw fs : ℚ) (scw : Option ℚ) (ml : ℕ) (st : WrapState)
    (w : Str) (hinv : st.is_truncated = true → ml ≤ st.lines.length) :
    (wrapStep aw fs scw ml st w).1.is_truncated = true →
      ml ≤ (wrapStep aw fs scw ml st w).1.lines.length := by
  simp only [wrapStep]
  by_cases hc : st.current_line = []
  · simp only [hc, if_pos rfl, ite_true, List.nil_append, ne_eq, not_true_eq_false, if_false]
    split
    · exact fun h => hinv h
    · split
      · split
        · next bp hbp =>
          intro h
          simp only at h ⊢
          calc ml ≤ st.lines.length := hinv h
            _ ≤ (st.lines ++ [bp]).length := by simp
        · exact fun h => hinv h
      · exact fun h => hinv h
  · simp only [hc, if_neg hc, ite_false, ne_eq, not_false_eq_true, if_true]
    split
    · exact fun h => hinv h
    · split
      · next hml =>
        intro h
        exact hml
      · next hml =>
        intro h
        calc ml ≤ st.lines.length := hinv h
          _ ≤ (st.lines ++ [st.current_line]).length := by simp

/-- A step that signals `break` leaves a truncated state. -/
theorem wrapStep_break_truncated (aw fs : ℚ) (scw : Option ℚ) (ml : ℕ) (st : WrapState)
    (w : Str) :
    (wrapStep aw fs scw ml st w).2 = true →
      (wrapStep aw fs scw ml st w).1.is_truncated = true := by
  simp only [wrapStep]
  by_cases hc : st.current_line = []
  · simp only [hc, if_pos rfl, ite_true, List.nil_append, ne_eq, not_true_eq_false, if_false]
    split
    · simp
    · split
      · split
        · simp
        · simp
      · simp
  · simp only [hc, if_neg hc, ite_false, ne_eq, not_false_eq_true, if_true]
    split
    · simp
    · split
      · simp
      · simp


/-- One loop step preserves goodness of all produced lines and of the current
line. -/
theorem wrapStep_good (aw fs : ℚ) (scw : Option ℚ) (ml : ℕ) (st : WrapState)
    (w : Str) (hw : ∀ c ∈ w, c.isWhitespace = false)
    (hlines : ∀ l ∈ st.lines, goodLine aw fs scw l)
    (hcur : goodLine aw fs scw st.current_line) :
    (∀ l ∈ (wrapStep aw fs scw ml st w).1.lines, goodLine aw fs scw l) ∧
      goodLine aw fs scw (wrapStep aw fs scw ml st w).1.current_line := by
  simp only [wrapStep]
  by_cases hc : st.current_line = []
  · simp only [hc, if_pos rfl, ite_true, List.nil_append, ne_eq, not_true_eq_false, if_false]
    split
    · next hfit => exact ⟨hlines, Or.inl hfit⟩
    · split
      · next hlen =>
        split
        · next bp hbp =>
          refine ⟨?_, Or.inr ?_⟩
          · intro l hl
            rcases List.mem_append.mp hl with h1 | h2
            · exact hlines l h1
            · simp only [List.mem_singleton] at h2
              subst h2
              exact Or.inr (break_long_word_noWS w aw fs scw l hw hbp)
          · exact fun c hcmem => hw c (List.drop_subset _ _ hcmem)
        · exact ⟨hlines, Or.inr hw⟩
      · exact ⟨hlines, Or.inr hw⟩
  · simp only [hc, if_neg hc, ite_false, ne_eq, not_false_eq_true, if_true]
    split
    · next hfit => exact ⟨hlines, Or.inl hfit⟩
    · have happ : ∀ l ∈ st.lines ++ [st.current_line], goodLine aw fs scw l := by
        intro l hl
        rcases List.mem_append.mp hl with h1 | h2
        · exact hlines l h1
        · simp only [List.mem_singleton] at h2
          subst h2
          exact hcur
      split
      · exact ⟨happ, Or.inr hw⟩
      · exact ⟨happ, Or.inr hw⟩

/-- Loop invariant: the current line stays non-empty and at most
`max_lines + 1` lines are ever produced (the `+1` needs the initial
word-breaking append, which is why the bound is not `max_lines`). -/
theorem wrapLoop_basic (aw fs : ℚ) (scw : Option ℚ) (ml : ℕ) :
    ∀ (ws : List Str) (st : WrapState), (∀ w ∈ ws, w ≠ []) →
      st.current_line ≠ [] → st.lines.length ≤ ml →
      (wrapLoop aw fs scw ml st ws).1.current_line ≠ [] ∧
        (wrapLoop aw fs scw ml st ws).1.lines.length ≤ ml + 1 := by
  intro ws
  induction ws with
  | nil =>
    intro st h1 h2 h3
    simp only [wrapLoop]
    exact ⟨h2, by omega⟩
  | cons w ws ih =>
    intro st h1 h2 h3
    simp only [wrapLoop]
    have hstepcur := wrapStep_current_ne_nil aw fs scw ml st w (h1 w (by simp))
    have hsteplen := wrapStep_lines_le aw fs scw ml st w h2 h3
    rcases hstep : wrapStep aw fs scw ml st w with ⟨st', brk⟩
    rw [hstep] at hstepcur hsteplen
    cases brk
    · exact ih st' (fun x hx => h1 x (by simp [hx])) hstepcur (hsteplen.1 rfl)
    · exact ⟨hstepcur, (hsteplen.2 rfl).2.1⟩

/-- Loop invariant: a truncated final state has at least `max_lines` lines. -/
theorem wrapLoop_truncated_inv (aw fs : ℚ) (scw : Option ℚ) (ml : ℕ) :
    ∀ (ws : List Str) (st : WrapState),
      (st.is_truncated = true → ml ≤ st.lines.length) →
      ((wrapLoop aw fs scw ml st ws).1.is_truncated = true →
        ml ≤ (wrapLoop aw fs scw ml st ws).1.lines.length) := by
  intro ws
  induction ws with
  | nil => intro st h1; exact h1
  | cons w ws ih =>
    intro st h1
    simp only [wrapLoop]
    have hstepinv := wrapStep_truncated_inv aw fs scw ml st w h1
    rcases hstep : wrapStep aw fs scw ml st w with ⟨st', brk⟩
    rw [hstep] at hstepinv
    cases brk
    · exact ih st' hstepinv
    · exact hstepinv

/-- If the loop exits early (words remain), the state is truncated. -/
theorem wrapLoop_rem_truncated (aw fs : ℚ) (scw : Option ℚ) (ml : ℕ) :
    ∀ (ws : List Str) (st : WrapState),
      (wrapLoop aw fs scw ml st ws).2 ≠ [] →
      (wrapLoop aw fs scw ml st ws).1.is_truncated = true := by
  intro ws
  induction ws with
  | nil => intro st h1; simp [wrapLoop] at h1
  | cons w ws ih =>
    intro st h1
    simp only [wrapLoop] at h1 ⊢
    have hstepbrk := wrapStep_break_truncated aw fs scw ml st w
    rcases hstep : wrapStep aw fs scw ml st w with ⟨st', brk⟩
    rw [hstep] at hstepbrk h1
    cases brk
    · exact ih st' h1
    · exact hstepbrk rfl

/-- Loop invariant: all produced lines and the current line stay good. -/
theorem wrapLoop_good (aw fs : ℚ) (scw : Option ℚ) (ml : ℕ) :
    ∀ (ws : List Str) (st : WrapState), (∀ w ∈ ws, ∀ c ∈ w, c.isWhitespace = false) →
      (∀ l ∈ st.lines, goodLine aw fs scw l) → goodLine aw fs scw st.current_line →
      (∀ l ∈ (wrapLoop aw fs scw ml st ws).1.lines, goodLine aw fs scw l) ∧
        goodLine aw fs scw (wrapLoop aw fs scw ml st ws).1.current_line := by
  intro ws
  induction ws with
  | nil => intro st h1 h2 h3; exact ⟨h2, h3⟩
  | cons w ws ih =>
    intro st h1 h2 h3
    simp only [wrapLoop]
    have hstepgood := wrapStep_good aw fs scw ml st w (h1 w (by simp)) h2 h3
    rcases hstep : wrapStep aw fs scw ml st w with ⟨st', brk⟩
    rw [hstep] at hstepgood
    cases brk
    · exact ih st' (fun x hx => h1 x (by simp [hx])) hstepgood.1 hstepgood.2
    · exact hstepgood

/-- The redistribution loop only produces lines that fit the safety width or
consist of a single word. -/
theorem redistributeLoop_good (sw fs : ℚ) (scw : Option ℚ) :
    ∀ (ws : List Str) (cur : Str),
      (∀ w ∈ ws, ∀ c ∈ w, c.isWhitespace = false) →
      (estimate_text_width cur fs scw ≤ sw ∨ ∀ c ∈ cur, c.isWhitespace = false) →
      (∀ l ∈ (redistributeLoop sw fs scw cur ws).1,
        estimate_text_width l fs scw ≤ sw ∨ ∀ c ∈ l, c.isWhitespace = false) ∧
      (estimate_text_width (redistributeLoop sw fs scw cur ws).2 fs scw ≤ sw ∨
        ∀ c ∈ (redistributeLoop sw fs scw cur ws).2, c.isWhitespace = false) := by
  intro ws
  induction ws with
  | nil =>
    intro cur h1 h2
    simp only [redistributeLoop]
    exact ⟨by simp, h2⟩
  | cons w ws ih =>
    intro cur h1 h2
    simp only [redistributeLoop]
    have hw : ∀ c ∈ w, c.isWhitespace = false := h1 w (by simp)
    have hws : ∀ x ∈ ws, ∀ c ∈ x, c.isWhitespace = false :=
      fun x hx => h1 x (by simp [hx])
    by_cases hc : cur = []
    · simp only [hc, ite_true, List.nil_append, ne_eq, not_true_eq_false, if_false]
      split
      · next hfit => exact ih _ hws (Or.inl hfit)
      · have ihnil := ih [] hws (Or.inr (by simp))
        refine ⟨?_, ihnil.2⟩
        intro l hl
        rcases List.mem_cons.mp hl with rfl | hmem
        · exact Or.inr hw
        · exact ihnil.1 l hmem
    · simp only [hc, ite_false, ne_eq, not_false_eq_true, if_true]
      split
      · next hfit => exact ih _ hws (Or.inl hfit)
      · have ihw := ih w hws (Or.inr hw)
        refine ⟨?_, ihw.2⟩
        intro l hl
        rcases List.mem_cons.mp hl with rfl | hmem
        · exact h2
        · exact ihw.1 l hmem

/-- A successful redistribution returns at most as many lines as it was
given. -/
theorem optimize_length_le (lines : List Str) (aw fs : ℚ) (scw : Option ℚ)
    (ol : List Str) (h : optimize_text_redistribution lines aw fs scw = some ol) :
    ol.length ≤ lines.length := by
  simp only [optimize_text_redistribution] at h
  repeat' split at h
  all_goals try exact Option.noConfusion h
  all_goals (injection h with h; subst h; assumption)

/-- Every line of a successful redistribution fits the 96% safety width or is
a single word. -/
theorem optimize_good (lines : List Str) (aw fs : ℚ) (scw : Option ℚ)
    (ol : List Str) (h : optimize_text_redistribution lines aw fs scw = some ol) :
    ∀ l ∈ ol, estimate_text_width l fs scw ≤ aw * (96/100) ∨
      ∀ c ∈ l, c.isWhitespace = false := by
  have hwords : ∀ w ∈ lines.flatMap pySplit, ∀ c ∈ w, c.isWhitespace = false := by
    intro w hw
    rcases List.mem_flatMap.mp hw with ⟨l, _, hwl⟩
    exact (pySplit_sound l w hwl).2
  have hrun := redistributeLoop_good (aw * (96/100)) fs scw (lines.flatMap pySplit) []
    hwords (Or.inr (by simp))
  simp only [optimize_text_redistribution] at h
  repeat' split at h
  all_goals try exact Option.noConfusion h
  all_goals (
    injection h with h
    subst h
    intro l hl
    rcases List.mem_append.mp hl with h1 | h2
    · exact hrun.1 l h1
    · first
      | (simp only [List.mem_singleton] at h2; subst h2; exact hrun.2)
      | simp at h2)

/-- A step taken with an empty current line never breaks, grows the line list
by at most one, and leaves `is_truncated` unchanged. -/
theorem wrapStep_from_empty (aw fs : ℚ) (scw : Option ℚ) (ml : ℕ) (st : WrapState)
    (w : Str) (hc : st.current_line = []) :
    (wrapStep aw fs scw ml st w).2 = false ∧
      (wrapStep aw fs scw ml st w).1.lines.length ≤ st.lines.length + 1 ∧
      (wrapStep aw fs scw ml st w).1.is_truncated = st.is_truncated := by
  simp only [wrapStep]
  simp only [hc, ite_true, List.nil_append, ne_eq, not_true_eq_false, if_false]
  split
  · exact ⟨rfl, by simp, rfl⟩
  · split
    · split
      · exact ⟨rfl, by simp, rfl⟩
      · exact ⟨rfl, by simp, rfl⟩
    · exact ⟨rfl, by simp, rfl⟩

/-- Structural facts about the finishing stage of `wrap_text`: line count stays
within `max_lines + 1`, truncation implies at least `max_lines` lines, and a
truncated loop state stays truncated. -/
theorem wrapFinish_spec (text : Str) (aw fs : ℚ) (scw : Option ℚ) (ml : ℕ)
    (st : WrapState) (hcur : st.current_line ≠ []) (hml : 1 ≤ ml)
    (hlen1 : st.lines.length ≤ ml + 1)
    (htrinv : st.is_truncated = true → ml ≤ st.lines.length) :
    (wrapFinish text aw fs scw ml st).lines.length ≤ ml + 1 ∧
      ((wrapFinish text aw fs scw ml st).is_truncated = true →
        ml ≤ (wrapFinish text aw fs scw ml st).lines.length) ∧
      (st.is_truncated = true → (wrapFinish text aw fs scw ml st).is_truncated = true) := by
  by_cases hA : st.lines.length < ml
  · have htr : st.is_truncated = false := by
      by_contra hcon
      have h1 : st.is_truncated = true := by
        cases hsti : st.is_truncated
        · exact absurd hsti hcon
        · rfl
      exact absurd (htrinv h1) (by omega)
    simp only [wrapFinish, hcur, hA, htr, ne_eq, not_false_eq_true, and_self, if_true,
      and_true, true_and, List.append_eq_nil, List.cons_ne_nil, and_false, false_and,
      if_false]
    rcases hopt : optimize_text_redistribution (st.lines ++ [st.current_line]) aw fs scw
      with _ | ol
    · simp only [hopt]
      split
    <;> simp only [List.length_append, List.length_singleton]
    <;> exact ⟨by omega, fun h => by simp at h, fun h => by simp [htr] at h⟩
    · have holl := optimize_length_le _ aw fs scw ol hopt
      simp only [hopt]
      split
      <;> simp only [List.length_append, List.length_singleton] at holl ⊢
      <;> exact ⟨by omega, fun h => by simp at h, fun h => by simp [htr] at h⟩
  · have hBle : ml ≤ st.lines.length := by omega
    have hlines_ne : ¬ (st.lines = []) := by
      have h0 : 0 < st.lines.length := by omega
      exact List.length_pos.mp h0
    simp only [wrapFinish, hcur, hA, hBle, hlines_ne, ne_eq, not_false_eq_true,
      and_self, and_true, true_and, if_true, if_false, and_false, false_and,
      Bool.true_eq_false]
    exact ⟨hlen1, fun _ => trivial, fun _ => trivial⟩

/-- Every line surviving the finishing stage is good, for a box of
non-negative width. -/
theorem wrapFinish_good (text : Str) (aw fs : ℚ) (scw : Option ℚ) (ml : ℕ)
    (st : WrapState) (hcur : st.current_line ≠ []) (hml : 1 ≤ ml) (haw : 0 ≤ aw)
    (hglines : ∀ l ∈ st.lines, goodLine aw fs scw l)
    (hgcur : goodLine aw fs scw st.current_line) :
    ∀ l ∈ (wrapFinish text aw fs scw ml st).lines, goodLine aw fs scw l := by
  have hopt_good : ∀ (lines0 ol : List Str),
      optimize_text_redistribution lines0 aw fs scw = some ol →
      ∀ l ∈ ol, goodLine aw fs scw l := by
    intro lines0 ol hol l hl
    rcases optimize_good lines0 aw fs scw ol hol l hl with h96 | hnos
    · exact Or.inl (le_trans h96 (by linarith))
    · exact Or.inr hnos
  by_cases hA : st.lines.length < ml
  · have happ : ∀ l ∈ st.lines ++ [st.current_line], goodLine aw fs scw l := by
      intro l hl
      rcases List.mem_append.mp hl with h1 | h2
      · exact hglines l h1
      · simp only [List.mem_singleton] at h2
        subst h2
        exact hgcur
    simp only [wrapFinish, hcur, hA, ne_eq, not_false_eq_true, and_self, if_true,
      and_true, true_and, List.append_eq_nil, List.cons_ne_nil, and_false, false_and,
      if_false]
    split
    · rcases hopt : optimize_text_redistribution (st.lines ++ [st.current_line]) aw fs scw
        with _ | ol
      · simpa only [hopt] using happ
      · simp only [hopt]
        exact hopt_good _ ol hopt
    · exact happ
  · have hBle : ml ≤ st.lines.length := by omega
    have hlines_ne : ¬ (st.lines = []) := by
      have h0 : 0 < st.lines.length := by omega
      exact List.length_pos.mp h0
    simp only [wrapFinish, hcur, hA, hBle, hlines_ne, ne_eq, not_false_eq_true,
      and_self, and_true, true_and, if_true, if_false, and_false, false_and,
      Bool.true_eq_false]
    exact hglines

/-- Running the loop from the initial state: the first word is processed with
an empty current line (and hence cannot break), after which the standard loop
invariants apply. -/
theorem wrapLoop_init_basic (aw fs : ℚ) (scw : Option ℚ) (ml : ℕ) (ws : List Str)
    (hml : 1 ≤ ml) (hne : ∀ w ∈ ws, w ≠ []) (hws : ws ≠ []) :
    (wrapLoop aw fs scw ml ⟨[], [], false⟩ ws).1.current_line ≠ [] ∧
      (wrapLoop aw fs scw ml ⟨[], [], false⟩ ws).1.lines.length ≤ ml + 1 := by
  rcases ws with _ | ⟨w, ws⟩
  · exact absurd rfl hws
  simp only [wrapLoop]
  have hfe := wrapStep_from_empty aw fs scw ml ⟨[], [], false⟩ w rfl
  have hcur' := wrapStep_current_ne_nil aw fs scw ml ⟨[], [], false⟩ w (hne w (by simp))
  rcases hstep : wrapStep aw fs scw ml ⟨[], [], false⟩ w with ⟨st', brk⟩
  rw [hstep] at hfe hcur'
  have hb : brk = false := hfe.1
  subst hb
  exact wrapLoop_basic aw fs scw ml ws st' (fun x hx => hne x (by simp [hx])) hcur'
    (le_trans (by simpa using hfe.2.1) hml)

/-- Structural facts about `wrap_text`: at most `max_lines + 1` lines; a
truncated result has at least `max_lines` lines; and an early loop exit with
words remaining yields a truncated result. -/
theorem wrap_text_struct (text : Str) (aw : ℚ) (ml : ℕ) (fs : ℚ) (scw : Option ℚ)
    (hml : 1 ≤ ml) :
    (wrap_text text aw ml fs scw).lines.length ≤ ml + 1 ∧
    ((wrap_text text aw ml fs scw).is_truncated = true →
      ml ≤ (wrap_text text aw ml fs scw).lines.length) ∧
    (∀ st rem, wrapLoop aw fs scw ml ⟨[], [], false⟩ (pySplit text) = (st, rem) →
      rem ≠ [] → (wrap_text text aw ml fs scw).is_truncated = true) := by
  by_cases ht : text = []
  · subst ht
    refine ⟨by simp [wrap_text], by simp [wrap_text], ?_⟩
    intro st rem heq hrem
    have hps : pySplit ([] : Str) = [] := rfl
    rw [hps] at heq
    simp only [wrapLoop] at heq
    injection heq with h1 h2
    exact absurd h2.symm hrem
  · simp only [wrap_text, if_neg ht]
    by_cases hw : pySplit text = []
    · rw [if_pos hw]
      refine ⟨by simp, by simp, ?_⟩
      intro st rem heq hrem
      rw [hw] at heq
      simp only [wrapLoop] at heq
      injection heq with h1 h2
      exact absurd h2.symm hrem
    · rw [if_neg hw]
      have hwords_ne : ∀ x ∈ pySplit text, x ≠ [] :=
        fun x hx => (pySplit_sound text x hx).1
      have hinit := wrapLoop_init_basic aw fs scw ml (pySplit text) hml hwords_ne hw
      have htrinv := wrapLoop_truncated_inv aw fs scw ml (pySplit text) ⟨[], [], false⟩
        (by simp)
      have hremtr := wrapLoop_rem_truncated aw fs scw ml (pySplit text) ⟨[], [], false⟩
      rcases hrun : wrapLoop aw fs scw ml ⟨[], [], false⟩ (pySplit text) with ⟨st, rem⟩
      rw [hrun] at hinit htrinv hremtr
      have hfin := wrapFinish_spec text aw fs scw ml st hinit.1 hml hinit.2 htrinv
      refine ⟨hfin.1, hfin.2.1, ?_⟩
      intro st' rem' heq hrem'
      injection heq with h1 h2
      subst h1
      subst h2
      exact hfin.2.2 (hremtr hrem')

/-- Every line returned by `wrap_text` fits the 99% width margin or is a
single word, for a box of non-negative width. -/
theorem wrap_text_good (text : Str) (aw : ℚ) (ml : ℕ) (fs : ℚ) (scw : Option ℚ)
    (hml : 1 ≤ ml) (haw : 0 ≤ aw) :
    ∀ l ∈ (wrap_text text aw ml fs scw).lines, goodLine aw fs scw l := by
  by_cases ht : text = []
  · subst ht
    simp [wrap_text]
  · simp only [wrap_text, if_neg ht]
    by_cases hw : pySplit text = []
    · rw [if_pos hw]
      simp
    · rw [if_neg hw]
      have hwords_ne : ∀ x ∈ pySplit text, x ≠ [] :=
        fun x hx => (pySplit_sound text x hx).1
      have hwords_ws : ∀ x ∈ pySplit text, ∀ c ∈ x, c.isWhitespace = false :=
        fun x hx => (pySplit_sound text x hx).2
      have hinit := wrapLoop_init_basic aw fs scw ml (pySplit text) hml hwords_ne hw
      have hgood := wrapLoop_good aw fs scw ml (pySplit text) ⟨[], [], false⟩
        hwords_ws (by simp) (Or.inr (by simp))
      rcases hrun : wrapLoop aw fs scw ml ⟨[], [], false⟩ (pySplit text) with ⟨st, rem⟩
      rw [hrun] at hinit hgood
      exact wrapFinish_good text aw fs scw ml st hinit.1 hml haw hgood.1 hgood.2

/-- With a non-empty current line, a word is appended to it exactly when the
extended line fits the 99% safety width. -/
theorem wrapStep_append_iff (aw fs : ℚ) (scw : Option ℚ) (ml : ℕ) (st : WrapState)
    (w : Str) (hcur : st.current_line ≠ []) :
    (wrapStep aw fs scw ml st w).1.current_line = st.current_line ++ ' ' :: w ↔
      estimate_text_width (st.current_line ++ ' ' :: w) fs scw ≤ aw * (99/100) := by
  simp only [wrapStep, hcur, ite_false, ne_eq, not_false_eq_true, if_true]
  have hassoc : st.current_line ++ [' '] ++ w = st.current_line ++ ' ' :: w := by simp
  rw [hassoc]
  split
  · next hfit => exact ⟨fun _ => hfit, fun _ => rfl⟩
  · next hnfit =>
    constructor
    · intro hcontra
      exfalso
      have hw_eq : w = st.current_line ++ ' ' :: w := by
        revert hcontra
        split <;> intro hcontra <;> simpa using hcontra
      have hlen := congrArg List.length hw_eq
      simp only [List.length_append, List.length_cons] at hlen
      have hpos : 0 < st.current_line.length := List.length_pos.mpr hcur
      omega
    · intro hfit
      exact absurd hfit hnfit

/-- With a non-empty current line, an overflowing word closes the current line
(which becomes an output line unchanged) and the word itself, kept intact and
unhyphenated, becomes the new current line. -/
theorem wrapStep_overflow_intact (aw fs : ℚ) (scw : Option ℚ) (ml : ℕ) (st : WrapState)
    (w : Str) (hcur : st.current_line ≠ [])
    (hover : ¬ estimate_text_width (st.current_line ++ ' ' :: w) fs scw ≤ aw * (99/100)) :
    (wrapStep aw fs scw ml st w).1.lines = st.lines ++ [st.current_line] ∧
      (wrapStep aw fs scw ml st w).1.current_line = w := by
  simp only [wrapStep, hcur, ite_false, ne_eq, not_false_eq_true, if_true]
  have hassoc : st.current_line ++ [' '] ++ w = st.current_line ++ ' ' :: w := by simp
  rw [hassoc, if_neg hover]
  split
  · exact ⟨rfl, rfl⟩
  · exact ⟨rfl, rfl⟩

/-- With an empty current line (only possible before the first word), an
overflowing multi-character word is hyphen-broken: the broken part becomes an
output line and the unconsumed remainder becomes the current line. -/
theorem wrapStep_empty_breaks (aw fs : ℚ) (scw : Option ℚ) (ml : ℕ) (st : WrapState)
    (w : Str) (bp : Str) (hcur : st.current_line = []) (hlen : 1 < w.length)
    (hover : ¬ estimate_text_width w fs scw ≤ aw * (99/100))
    (hbp : break_long_word w aw fs scw = some bp) :
    (wrapStep aw fs scw ml st w).1.lines = st.lines ++ [bp] ∧
      (wrapStep aw fs scw ml st w).1.current_line =
        w.drop (rstripHyphen bp).length := by
  simp only [wrapStep, hcur, ite_true, List.nil_append, ne_eq, not_true_eq_false,
    if_false]
  rw [if_neg hover, if_pos hlen, hbp]
  exact ⟨rfl, rfl⟩

/-- The current line stays non-empty through the loop once it is non-empty,
when all words are non-empty. -/
theorem wrapLoop_current_ne (aw fs : ℚ) (scw : Option ℚ) (ml : ℕ) :
    ∀ (ws : List Str) (st : WrapState), st.current_line ≠ [] →
      (∀ w ∈ ws, w ≠ []) → (wrapLoop aw fs scw ml st ws).1.current_line ≠ [] := by
  intro ws
  induction ws with
  | nil => intro st h1 h2; simpa [wrapLoop] using h1
  | cons w ws ih =>
    intro st h1 h2
    simp only [wrapLoop]
    have hcur' := wrapStep_current_ne_nil aw fs scw ml st w (h2 w (by simp))
    rcases hstep : wrapStep aw fs scw ml st w with ⟨st', brk⟩
    rw [hstep] at hcur'
    cases brk
    · exact ih st' hcur' (fun x hx => h2 x (by simp [hx]))
    · exact hcur'

/-- C1, amended: the text fitter performs no size-reduction iterations at all;
for every call with non-empty text the returned `scaled_font_size` equals the
original font size, so the floor `max(4.0, 0.3*original)` is respected exactly
when the original size is at least `4.0`. -/
theorem fit_text_scaled_font_size_eq_original (text : Str) (aw ah fs : ℚ)
    (nl : Option ℕ) (fm : Option FontMetrics) (h : text ≠ []) :
    (fit_text_to_bounds text aw ah fs nl fm).scaled_font_size = fs ∧
      (4 ≤ fs → max 4 ((3/10) * fs) ≤
        (fit_text_to_bounds text aw ah fs nl fm).scaled_font_size) := by
  have hs : (fit_text_to_bounds text aw ah fs nl fm).scaled_font_size = fs := by
    simp only [fit_text_to_bounds, if_neg h]
    split
    · rfl
    · rfl
  refine ⟨hs, fun h4 => ?_⟩
  rw [hs]
  have h3 : (3/10 : ℚ) * fs ≤ fs := by nlinarith
  exact max_le h4 h3

/-- C1, counterexample to the claim as stated: at original font size `2` the
fitter returns `scaled_font_size = 2`, strictly below `max(4.0, 0.3*2) = 4`. -/
theorem fit_text_scaled_font_size_below_floor :
    (fit_text_to_bounds ['a'] 100 100 2 none none).scaled_font_size = 2 ∧
      ¬ max 4 ((3/10) * (2:ℚ)) ≤
        (fit_text_to_bounds ['a'] 100 100 2 none none).scaled_font_size := by
  constructor
  · norm_num +decide [fit_text_to_bounds]
  · norm_num +decide [fit_text_to_bounds, max_le_iff]

/-- C1, witness: the amended theorem applied at a concrete input. -/
theorem fit_text_scaled_font_size_eq_original_witness :
    (['a'] : Str) ≠ [] ∧
      (fit_text_to_bounds ['a'] 100 100 12 none none).scaled_font_size = 12 :=
  ⟨by decide, (fit_text_scaled_font_size_eq_original ['a'] 100 100 12 none none
    (by decide)).1⟩

/-- C2, amended: for a multi-line paragraph (target line count at least 2) the
fitter applies no initial cut at all; it keeps the original font size
unchanged (`fit_method = "multi_line"`). -/
theorem fit_text_multiline_scaled_eq_original (text : Str) (aw ah fs : ℚ) (k : ℕ)
    (fm : Option FontMetrics) (h : text ≠ []) (hk : 2 ≤ k) :
    (fit_text_to_bounds text aw ah fs (some k) fm).scaled_font_size = fs ∧
      (fit_text_to_bounds text aw ah fs (some k) fm).fit_method = "multi_line" := by
  have hk0 : ¬ (k = 0) := by omega
  have hk1 : ¬ (k = 1) := by omega
  simp only [fit_text_to_bounds, if_neg h, hk0, if_false, hk1]
  exact ⟨by trivial, by trivial⟩

/-- C2, counterexample to the claim as stated: a two-line paragraph is fitted
with `scaled_font_size` equal to (not strictly less than) the original size. -/
theorem fit_text_multiline_no_initial_cut :
    (fit_text_to_bounds ("ab cd".toList) 100 100 12 (some 2) none).fit_method =
        "multi_line" ∧
      ¬ (fit_text_to_bounds ("ab cd".toList) 100 100 12 (some 2) none).scaled_font_size
          < 12 := by
  constructor
  · norm_num +decide [fit_text_to_bounds, wrap_text, pySplit, splitWsAux, wrapLoop,
      wrapStep, estimate_text_width, scwTruthy, scwVal, wrapFinish,
      optimize_text_redistribution, listMinQ, listMaxQ, redistributeLoop]
  · norm_num +decide [fit_text_to_bounds, wrap_text, pySplit, splitWsAux, wrapLoop,
      wrapStep, estimate_text_width, scwTruthy, scwVal, wrapFinish,
      optimize_text_redistribution, listMinQ, listMaxQ, redistributeLoop]

/-- C2, witness: the amended theorem applied at a concrete input. -/
theorem fit_text_multiline_scaled_eq_original_witness :
    ("ab cd".toList ≠ ([] : Str)) ∧ 2 ≤ 2 ∧
      (fit_text_to_bounds ("ab cd".toList) 100 100 12 (some 2) none).scaled_font_size
        = 12 :=
  ⟨by decide, by decide, (fit_text_multiline_scaled_eq_original ("ab cd".toList)
    100 100 12 2 none (by decide) (by decide)).1⟩

/-- C3, amended: for `max_lines ≥ 1` the wrapped line list has at most
`max_lines + 1` entries (the possible extra line arises only from hyphen
breaking of an overflowing first word); a truncated result carries at least
`max_lines` lines; and whenever the word loop stops early with words left
unplaced, the result is marked `is_truncated = true`. -/
theorem wrap_text_line_count_le (text : Str) (aw : ℚ) (ml : ℕ) (fs : ℚ)
    (scw : Option ℚ) (hml : 1 ≤ ml) :
    (wrap_text text aw ml fs scw).lines.length ≤ ml + 1 ∧
    ((wrap_text text aw ml fs scw).is_truncated = true →
      ml ≤ (wrap_text text aw ml fs scw).lines.length) ∧
    (∀ st rem, wrapLoop aw fs scw ml ⟨[], [], false⟩ (pySplit text) = (st, rem) →
      rem ≠ [] → (wrap_text text aw ml fs scw).is_truncated = true) :=
  wrap_text_struct text aw ml fs scw hml

/-- C3, counterexample to the claim as stated: with `max_lines = 1` and an
overflowing first word, `wrap_text` returns 2 lines. -/
theorem wrap_text_line_count_exceeds_max :
    (wrap_text ("abcdefgh xyzxyzxy".toList) 50 1 12 (some 10)).lines.length = 2 ∧
      (wrap_text ("abcdefgh xyzxyzxy".toList) 50 1 12 (some 10)).is_truncated = true := by
  have ht : "abcdefgh xyzxyzxy".toList =
      ['a','b','c','d','e','f','g','h',' ','x','y','z','x','y','z','x','y'] := by decide
  rw [ht]
  have hscw : scwTruthy (some 10) = true := by norm_num [scwTruthy]
  have hsplit : pySplit ['a','b','c','d','e','f','g','h',' ','x','y','z','x','y','z','x','y'] =
      [['a','b','c','d','e','f','g','h'], ['x','y','z','x','y','z','x','y']] := by decide
  have hmc : pyInt ((50:ℚ) * (96/100) / 10) = 4 := by norm_num [pyInt]
  have hbreak : break_long_word ['a','b','c','d','e','f','g','h'] 50 12 (some 10) =
      some ['a','b','c','-'] := by
    simp only [break_long_word, hscw, if_true, scwVal, hmc]
    decide
  have hdrop : (['a','b','c','d','e','f','g','h'] : Str).drop
      (rstripHyphen ['a','b','c','-']).length = ['d','e','f','g','h'] := by decide
  have h1 : wrapStep 50 12 (some 10) 1 ⟨[], [], false⟩ ['a','b','c','d','e','f','g','h'] =
      (⟨[['a','b','c','-']], ['d','e','f','g','h'], false⟩, false) := by
    norm_num +decide [wrapStep, estimate_text_width, hscw, scwVal, hbreak, hdrop]
  have h2 : wrapStep 50 12 (some 10) 1 ⟨[['a','b','c','-']], ['d','e','f','g','h'], false⟩
      ['x','y','z','x','y','z','x','y'] =
      (⟨[['a','b','c','-'], ['d','e','f','g','h']], ['x','y','z','x','y','z','x','y'], true⟩,
        true) := by
    norm_num +decide [wrapStep, estimate_text_width, hscw, scwVal]
  have hloop : wrapLoop 50 12 (some 10) 1 ⟨[], [], false⟩
      [['a','b','c','d','e','f','g','h'], ['x','y','z','x','y','z','x','y']] =
      (⟨[['a','b','c','-'], ['d','e','f','g','h']], ['x','y','z','x','y','z','x','y'], true⟩,
        []) := by
    simp only [wrapLoop, h1, h2]
  have hfin : wrap_text ['a','b','c','d','e','f','g','h',' ','x','y','z','x','y','z','x','y']
      50 1 12 (some 10) =
      wrapFinish ['a','b','c','d','e','f','g','h',' ','x','y','z','x','y','z','x','y']
        50 12 (some 10) 1
        ⟨[['a','b','c','-'], ['d','e','f','g','h']], ['x','y','z','x','y','z','x','y'], true⟩ := by
    simp only [wrap_text, hsplit, hloop]
    norm_num +decide
  rw [hfin]
  norm_num +decide [wrapFinish]

/-- C3, witness: the amended theorem applied at a concrete input. -/
theorem wrap_text_line_count_le_witness :
    1 ≤ 2 ∧ (wrap_text ("ab cd".toList) 100 2 12 none).lines.length ≤ 2 + 1 :=
  ⟨by decide, (wrap_text_line_count_le ("ab cd".toList) 100 2 12 none (by decide)).1⟩

/-- C4, amended: a word is appended to the (non-empty) current line exactly
when the extended line's estimated width is at most `0.99 * available_width`
(the safety factor in the code is `0.99`, not `0.97`); consequently every line
of a `wrap_text` result either fits the `0.99` margin or consists of a single
word (no whitespace), for `max_lines ≥ 1` and a non-negative width. -/
theorem wrap_text_safety_margin :
    (∀ (aw fs : ℚ) (scw : Option ℚ) (ml : ℕ) (st : WrapState) (w : Str),
      st.current_line ≠ [] →
      ((wrapStep aw fs scw ml st w).1.current_line = st.current_line ++ ' ' :: w ↔
        estimate_text_width (st.current_line ++ ' ' :: w) fs scw ≤ aw * (99/100))) ∧
    (∀ (text : Str) (aw : ℚ) (ml : ℕ) (fs : ℚ) (scw : Option ℚ), 1 ≤ ml → 0 ≤ aw →
      ∀ l ∈ (wrap_text text aw ml fs scw).lines,
        estimate_text_width l fs scw ≤ aw * (99/100) ∨
          ∀ c ∈ l, c.isWhitespace = false) :=
  ⟨fun aw fs scw ml st w h => wrapStep_append_iff aw fs scw ml st w h,
   fun text aw ml fs scw hml haw l hl => wrap_text_good text aw ml fs scw hml haw l hl⟩

/-- C4, counterexample to the claim as stated: a word is appended although the
extended line exceeds `0.97 * available_width` (it only respects `0.99`). -/
theorem wrap_text_margin_not_097 :
    (wrap_text ("abcdefghijk ab".toList) 100 5 12 (some 7)).lines =
        ["abcdefghijk ab".toList] ∧
      ¬ estimate_text_width ("abcdefghijk ab".toList) 12 (some 7) ≤ 100 * (97/100) ∧
      estimate_text_width ("abcdefghijk ab".toList) 12 (some 7) ≤ 100 * (99/100) := by
  refine ⟨?_, ?_, ?_⟩
  · norm_num +decide [wrap_text, pySplit, splitWsAux, wrapLoop, wrapStep, wrapFinish,
      estimate_text_width, scwTruthy, scwVal, optimize_text_redistribution,
      listMinQ, listMaxQ, redistributeLoop]
  · norm_num +decide [estimate_text_width, scwTruthy, scwVal]
  · norm_num +decide [estimate_text_width, scwTruthy, scwVal]

/-- C4, witness: the amended theorem applied at a concrete input. -/
theorem wrap_text_safety_margin_witness :
    1 ≤ 2 ∧ (0:ℚ) ≤ 100 ∧
      ∀ l ∈ (wrap_text ("ab cd".toList) 100 2 12 none).lines,
        estimate_text_width l 12 none ≤ 100 * (99/100) ∨
          ∀ c ∈ l, c.isWhitespace = false :=
  ⟨by decide, by simp,
    fun l hl => wrap_text_safety_margin.2 ("ab cd".toList) 100 2 12 none
      (by decide) (by simp) l hl⟩

/-- C5, amended: an overflowing word reached with a non-empty current line is
kept intact (it closes the current line and becomes the new current line,
later emitted unchanged); but an overflowing multi-character word reached with
an empty current line — only possible for the first word, since the current
line is non-empty ever after — is hyphen-broken via `break_long_word` rather
than placed intact. -/
theorem wrap_text_long_word_handling :
    (∀ (aw fs : ℚ) (scw : Option ℚ) (ml : ℕ) (st : WrapState) (w : Str),
      st.current_line ≠ [] →
      ¬ estimate_text_width (st.current_line ++ ' ' :: w) fs scw ≤ aw * (99/100) →
      (wrapStep aw fs scw ml st w).1.lines = st.lines ++ [st.current_line] ∧
        (wrapStep aw fs scw ml st w).1.current_line = w) ∧
    (∀ (aw fs : ℚ) (scw : Option ℚ) (ml : ℕ) (st : WrapState) (w bp : Str),
      st.current_line = [] → 1 < w.length →
      ¬ estimate_text_width w fs scw ≤ aw * (99/100) →
      break_long_word w aw fs scw = some bp →
      (wrapStep aw fs scw ml st w).1.lines = st.lines ++ [bp] ∧
        (wrapStep aw fs scw ml st w).1.current_line =
          w.drop (rstripHyphen bp).length) ∧
    (∀ (aw fs : ℚ) (scw : Option ℚ) (ml : ℕ) (ws : List Str) (st : WrapState),
      st.current_line ≠ [] → (∀ w ∈ ws, w ≠ []) →
      (wrapLoop aw fs scw ml st ws).1.current_line ≠ []) :=
  ⟨fun aw fs scw ml st w h1 h2 => wrapStep_overflow_intact aw fs scw ml st w h1 h2,
   fun aw fs scw ml st w bp h1 h2 h3 h4 =>
     wrapStep_empty_breaks aw fs scw ml st w bp h1 h2 h3 h4,
   fun aw fs scw ml ws st h1 h2 => wrapLoop_current_ne aw fs scw ml ws st h1 h2⟩

/-- C5, counterexample to the claim as stated: the overflowing first word
`"abcdefgh"` is hyphenated (a `'-'` absent from the input appears, and the
word occupies no line intact). -/
theorem wrap_text_hyphenates_first_long_word :
    (wrap_text ("abcdefgh xy".toList) 50 3 12 (some 10)).lines =
        ["abc-".toList, "defgh".toList, "xy".toList] ∧
      ¬ estimate_text_width ("abcdefgh".toList) 12 (some 10) ≤ 50 * (99/100) ∧
      ('-' ∈ "abc-".toList) ∧ ¬ ('-' ∈ "abcdefgh xy".toList) := by
  refine ⟨?_, ?_, by decide, by decide⟩
  · have ht : "abcdefgh xy".toList =
        ['a','b','c','d','e','f','g','h',' ','x','y'] := by decide
    rw [ht]
    have hscw : scwTruthy (some 10) = true := by norm_num [scwTruthy]
    have hsplit : pySplit ['a','b','c','d','e','f','g','h',' ','x','y'] =
        [['a','b','c','d','e','f','g','h'], ['x','y']] := by decide
    have hmc : pyInt ((50:ℚ) * (96/100) / 10) = 4 := by norm_num [pyInt]
    have hbreak : break_long_word ['a','b','c','d','e','f','g','h'] 50 12 (some 10) =
        some ['a','b','c','-'] := by
      simp only [break_long_word, hscw, if_true, scwVal, hmc]
      decide
    have hdrop : (['a','b','c','d','e','f','g','h'] : Str).drop
        (rstripHyphen ['a','b','c','-']).length = ['d','e','f','g','h'] := by decide
    have h1 : wrapStep 50 12 (some 10) 3 ⟨[], [], false⟩
        ['a','b','c','d','e','f','g','h'] =
        (⟨[['a','b','c','-']], ['d','e','f','g','h'], false⟩, false) := by
      norm_num +decide [wrapStep, estimate_text_width, hscw, scwVal, hbreak, hdrop]
    have h2 : wrapStep 50 12 (some 10) 3 ⟨[['a','b','c','-']], ['d','e','f','g','h'], false⟩
        ['x','y'] =
        (⟨[['a','b','c','-'], ['d','e','f','g','h']], ['x','y'], false⟩, false) := by
      norm_num +decide [wrapStep, estimate_text_width, hscw, scwVal]
    have hloop : wrapLoop 50 12 (some 10) 3 ⟨[], [], false⟩
        [['a','b','c','d','e','f','g','h'], ['x','y']] =
        (⟨[['a','b','c','-'], ['d','e','f','g','h']], ['x','y'], false⟩, []) := by
      simp only [wrapLoop, h1, h2]
    have hfin : wrap_text ['a','b','c','d','e','f','g','h',' ','x','y'] 50 3 12 (some 10) =
        wrapFinish ['a','b','c','d','e','f','g','h',' ','x','y'] 50 12 (some 10) 3
          ⟨[['a','b','c','-'], ['d','e','f','g','h']], ['x','y'], false⟩ := by
      simp only [wrap_text, hsplit, hloop]
      norm_num +decide
    rw [hfin]
    have hopt : optimize_text_redistribution
        [['a','b','c','-'], ['d','e','f','g','h'], ['x','y']] 50 12 (some 10) = none := by
      have hw1 : pySplit ['a','b','c','-'] = [['a','b','c','-']] := by decide
      have hw2 : pySplit ['d','e','f','g','h'] = [['d','e','f','g','h']] := by decide
      have hw3 : pySplit ['x','y'] = [['x','y']] := by decide
      norm_num +decide [optimize_text_redistribution, estimate_text_width, hscw, scwVal,
        listMinQ, listMaxQ, redistributeLoop, hw1, hw2, hw3]
    norm_num +decide [wrapFinish, hopt]
  · norm_num +decide [estimate_text_width, scwTruthy, scwVal]

/-- C5, witness: the amended theorem applied at a concrete input: a word that
overflows a non-empty current line is kept intact as the new current line. -/
theorem wrap_text_long_word_handling_witness :
    ((⟨[], "ab".toList, false⟩ : WrapState).current_line ≠ []) ∧
      (wrapStep 50 12 (some 10) 3 ⟨[], "ab".toList, false⟩ ("cdefgh".toList)).1.lines =
          [] ++ ["ab".toList] ∧
      (wrapStep 50 12 (some 10) 3 ⟨[], "ab".toList, false⟩
          ("cdefgh".toList)).1.current_line = "cdefgh".toList :=
  ⟨by decide,
    (wrap_text_long_word_handling.1 50 12 (some 10) 3 ⟨[], "ab".toList, false⟩
      ("cdefgh".toList) (by decide)
      (by norm_num [estimate_text_width, scwTruthy, scwVal])).1,
    (wrap_text_long_word_handling.1 50 12 (some 10) 3 ⟨[], "ab".toList, false⟩
      ("cdefgh".toList) (by decide)
      (by norm_num [estimate_text_width, scwTruthy, scwVal])).2⟩

/-- C6, amended: a merged gap group is accepted exactly when its average gap
size exceeds `min(10, 0.05*page_width)` (the code tests `avg > 10 OR
avg > 0.05*page_width`, not the claimed `max`/AND combination) and its
combined vertical coverage exceeds 10% of the content height. -/
theorem detect_columns_acceptance (chars : List PChar) (pw : ℚ) :
    detect_columns_by_gaps chars pw =
      if chars = [] then [0, pw]
      else if gapsOf chars = [] then [0, pw]
      else
        [0] ++ List.insertionSort (fun a b : ℚ => a ≤ b)
          (((groupGaps (sortGapsByPosition (gapsOf chars))).filter (fun g =>
            decide (min 10 (pw * (5/100)) < groupAvgSize g ∧
              contentHeight chars * (1/10) < groupYCoverage g))).map groupAvgPosition)
          ++ [pw] := by
  have hpred : ∀ g ∈ groupGaps (sortGapsByPosition (gapsOf chars)),
      columnGapAccepted pw (contentHeight chars) g =
        decide (min 10 (pw * (5/100)) < groupAvgSize g ∧
          contentHeight chars * (1/10) < groupYCoverage g) := by
    intro g _
    simp only [columnGapAccepted, min_lt_iff, Bool.decide_and, Bool.decide_or]
  simp only [detect_columns_by_gaps]
  split
  · rfl
  · split
    · rfl
    · rw [List.filter_congr hpred]

/-- C6, counterexample to the claim as stated: a two-character page with a
20pt gap on a 600pt-wide page.  The gap group's average size `20` fails the
claimed `max(10, 0.05*600) = 30` threshold while its coverage condition holds,
yet the code accepts it (because `20 > 10`) and returns an interior boundary. -/
theorem detect_columns_accepts_below_max_threshold :
    detect_columns_by_gaps
        [⟨0, 0, 10, 12, some ['a'], some "F", some 12⟩,
         ⟨30, 0, 40, 12, some ['a'], some "F", some 12⟩] 600 = [0, 20, 600] ∧
      groupGaps (sortGapsByPosition (gapsOf
        [⟨0, 0, 10, 12, some ['a'], some "F", some 12⟩,
         ⟨30, 0, 40, 12, some ['a'], some "F", some 12⟩])) =
        [[⟨20, 20, 0, 12, 10, 30⟩]] ∧
      ¬ (max 10 (600 * (5/100) : ℚ) < groupAvgSize [⟨20, 20, 0, 12, 10, 30⟩]) ∧
      contentHeight [⟨0, 0, 10, 12, some ['a'], some "F", some 12⟩,
         ⟨30, 0, 40, 12, some ['a'], some "F", some 12⟩] * (1/10) <
        groupYCoverage [⟨20, 20, 0, 12, 10, 30⟩] := by
  have hgaps : gapsOf [⟨0, 0, 10, 12, some ['a'], some "F", some 12⟩,
      ⟨30, 0, 40, 12, some ['a'], some "F", some 12⟩] = [⟨20, 20, 0, 12, 10, 30⟩] := by
    norm_num [gapsOf, charsSortedByX0, List.insertionSort, List.orderedInsert,
      List.filterMap_cons, List.filterMap_nil, Option.getD, min_self, max_self]
  have hsort : sortGapsByPosition [(⟨20, 20, 0, 12, 10, 30⟩ : GapInfo)] =
      [⟨20, 20, 0, 12, 10, 30⟩] := by
    norm_num [sortGapsByPosition, List.insertionSort, List.orderedInsert]
  have hgroup : groupGaps [(⟨20, 20, 0, 12, 10, 30⟩ : GapInfo)] =
      [[⟨20, 20, 0, 12, 10, 30⟩]] := by
    norm_num [groupGaps, groupGapsAux]
  refine ⟨?_, by rw [hgaps, hsort, hgroup], ?_, ?_⟩
  · rw [detect_columns_by_gaps]
    rw [if_neg (by simp)]
    rw [hgaps]
    rw [if_neg (by simp)]
    rw [hsort, hgroup]
    norm_num [columnGapAccepted, groupAvgSize, groupYCoverage, contentHeight,
      listMinQ, listMaxQ, groupAvgPosition, List.insertionSort, List.orderedInsert]
  · norm_num [groupAvgSize]
  · norm_num [contentHeight, groupYCoverage, listMinQ, listMaxQ]

/-- C9, confirmed: the reading-order sorter's output is in descending score
order (adjacent pairs), and groups with equal scores keep their original
relative order (stable sort, stated via filtering on a fixed score). -/
theorem reading_order_sorted_desc_and_stable (groups : List TextGroup) (page_height : ℚ) :
    List.Chain' (fun a b => calculate_reading_order_score b page_height ≤
        calculate_reading_order_score a page_height)
      (sort_groups_by_reading_order groups page_height) ∧
    ∀ s : ℚ,
      (sort_groups_by_reading_order groups page_height).filter
          (fun g => decide (calculate_reading_order_score g page_height = s)) =
        groups.filter
          (fun g => decide (calculate_reading_order_score g page_height = s)) := by
  constructor
  · haveI h1 : IsTotal TextGroup (fun a b => calculate_reading_order_score b page_height ≤
        calculate_reading_order_score a page_height) := ⟨fun a b => le_total _ _⟩
    haveI h2 : IsTrans TextGroup (fun a b => calculate_reading_order_score b page_height ≤
        calculate_reading_order_score a page_height) :=
      ⟨fun a b c hab hbc => le_trans hbc hab⟩
    exact (List.sorted_insertionSort _ groups).chain'
  · intro s
    have hpair : (groups.filter
        (fun g => decide (calculate_reading_order_score g page_height = s))).Pairwise
        (fun a b => calculate_reading_order_score b page_height ≤
          calculate_reading_order_score a page_height) := by
      apply List.pairwise_of_forall_mem_list
      intro a ha b hb
      have ha2 := List.of_mem_filter ha
      have hb2 := List.of_mem_filter hb
      simp only [decide_eq_true_eq] at ha2 hb2
      rw [ha2, hb2]
    have hsub : List.Sublist
        (groups.filter (fun g => decide (calculate_reading_order_score g page_height = s)))
        (sort_groups_by_reading_order groups page_height) :=
      List.sublist_insertionSort hpair (List.filter_sublist groups)
    have hsub2 := hsub.filter
      (fun g => decide (calculate_reading_order_score g page_height = s))
    rw [List.filter_filter] at hsub2
    have hidem : (fun g => decide (calculate_reading_order_score g page_height = s) &&
        decide (calculate_reading_order_score g page_height = s)) =
        (fun g => decide (calculate_reading_order_score g page_height = s)) := by
      funext g
      rw [Bool.and_self]
    rw [hidem] at hsub2
    have hperm : List.Perm
        ((sort_groups_by_reading_order groups page_height).filter
          (fun g => decide (calculate_reading_order_score g page_height = s)))
        (groups.filter (fun g => decide (calculate_reading_order_score g page_height = s))) :=
      (List.perm_insertionSort _ groups).filter _
    exact (hsub2.eq_of_length hperm.length_eq.symm).symm

/-- C8, confirmed: paragraph fitting produces exactly one output record per
input (in order), and a paragraph with empty text or zero width/height is
passed through unchanged with `fit_method = "not_fitted"`, empty
`fitted_lines`, and its original font size. -/
theorem process_paragraphs_one_per_input :
    (∀ ps : List Paragraph, (process_paragraphs ps).length = ps.length ∧
      process_paragraphs ps = ps.map processOneParagraph) ∧
    (∀ p : Paragraph, (p.text = [] ∨ paragraphWidth p = 0 ∨ paragraphHeight p = 0) →
      processOneParagraph p = ⟨p, [], "not_fitted", p.font_size.getD 12, false⟩) := by
  have hmap : ∀ ps : List Paragraph, process_paragraphs ps = ps.map processOneParagraph := by
    intro ps
    induction ps with
    | nil => rfl
    | cons p ps ih => simp [process_paragraphs, ih]
  constructor
  · intro ps
    refine ⟨?_, hmap ps⟩
    rw [hmap]
    simp
  · intro p hp
    simp only [processOneParagraph, if_pos hp]

/-- C8, witness: the not-fitted pass-through applied to a concrete empty
paragraph. -/
theorem process_paragraphs_one_per_input_witness :
    (([] : Str) = [] ∨ paragraphWidth ⟨[], none, none, none, none, none, none, none, "x"⟩ = 0 ∨
        paragraphHeight ⟨[], none, none, none, none, none, none, none, "x"⟩ = 0) ∧
      processOneParagraph ⟨[], none, none, none, none, none, none, none, "x"⟩ =
        ⟨⟨[], none, none, none, none, none, none, none, "x"⟩, [], "not_fitted", 12, false⟩ :=
  ⟨Or.inl rfl, process_paragraphs_one_per_input.2
    ⟨[], none, none, none, none, none, none, none, "x"⟩ (Or.inl rfl)⟩

/-- Lookup after appending a fresh entry at the tail. -/
theorem mLookup_append (m : MetricsMap) (k₀ : FontKey) (v : FontMetrics) (k : FontKey) :
    mLookup (m ++ [(k₀, v)]) k =
      match mLookup m k with
      | some v' => some v'
      | none => if k₀ = k then some v else none := by
  induction m with
  | nil => simp [mLookup]
  | cons e m ih =>
    by_cases he : e.1 = k
    · simp [mLookup, he]
    · simp only [List.cons_append, mLookup, if_neg he]
      exact ih

/-- Lookup after a keyed update. -/
theorem mLookup_mUpdate (f : FontMetrics → FontMetrics) (m : MetricsMap) (k₀ k : FontKey) :
    mLookup (mUpdate f m k₀) k =
      if k₀ = k then (mLookup m k).map f else mLookup m k := by
  induction m with
  | nil => simp [mLookup, mUpdate]
  | cons e m ih =>
    by_cases he1 : e.1 = k₀
    · by_cases he2 : e.1 = k
      · have hk : k₀ = k := he1 ▸ he2
        simp [mUpdate, mLookup, he1, he2, hk]
      · have hk : ¬ (k₀ = k) := fun h => he2 (h ▸ he1)
        simp only [mUpdate, if_pos he1, mLookup, if_neg he2, ih, if_neg hk]
    · by_cases he2 : e.1 = k
      · have hk : ¬ (k₀ = k) := fun h => he1 (he2.trans h.symm)
        simp only [mUpdate, if_neg he1, mLookup, if_pos he2, if_neg hk]
      · simp only [mUpdate, if_neg he1, mLookup, if_neg he2, ih]

/-- A successful lookup yields a member of the association list. -/
theorem mLookup_mem (m : MetricsMap) (k : FontKey) (v : FontMetrics)
    (h : mLookup m k = some v) : (k, v) ∈ m := by
  induction m with
  | nil => cases h
  | cons e m ih =>
    simp only [mLookup] at h
    split at h
    · next he =>
      injection h with h
      subst h
      rcases e with ⟨ek, ev⟩
      simp only at he
      subst he
      exact List.mem_cons_self _ _
    · exact List.mem_cons.mpr (Or.inr (ih h))

/-- A membership in an updated map comes either from an untouched entry or
from applying `f` to an entry with the updated key. -/
theorem mUpdate_mem (f : FontMetrics → FontMetrics) (m : MetricsMap) (k₀ : FontKey) :
    ∀ e ∈ mUpdate f m k₀, e ∈ m ∨ ∃ v, (e.1, v) ∈ m ∧ e.1 = k₀ ∧ e.2 = f v := by
  induction m with
  | nil => simp [mUpdate]
  | cons e' m ih =>
    intro e he
    by_cases h1 : e'.1 = k₀
    · simp only [mUpdate, if_pos h1] at he
      rcases List.mem_cons.mp he with rfl | hmem
      · exact Or.inr ⟨e'.2, List.mem_cons.mpr (Or.inl (by rcases e' with ⟨a, b⟩; rfl)),
          by simpa using h1, rfl⟩
      · rcases ih e hmem with h2 | ⟨v, hv, hk, hf⟩
        · exact Or.inl (List.mem_cons.mpr (Or.inr h2))
        · exact Or.inr ⟨v, List.mem_cons.mpr (Or.inr hv), hk, hf⟩
    · simp only [mUpdate, if_neg h1] at he
      rcases List.mem_cons.mp he with rfl | hmem
      · exact Or.inl (List.mem_cons_self _ _)
      · rcases ih e hmem with h2 | ⟨v, hv, hk, hf⟩
        · exact Or.inl (List.mem_cons.mpr (Or.inr h2))
        · exact Or.inr ⟨v, List.mem_cons.mpr (Or.inr hv), hk, hf⟩

/-- A key absent from the key list looks up to `none`. -/
theorem mLookup_eq_none_of_not_mem (m : MetricsMap) (k : FontKey)
    (h : k ∉ m.map Prod.fst) : mLookup m k = none := by
  induction m with
  | nil => rfl
  | cons e m ih =>
    simp only [List.map_cons, List.mem_cons] at h
    push_neg at h
    have hne : ¬ (e.1 = k) := fun he => h.1 he.symm
    show (if e.1 = k then some e.2 else mLookup m k) = none
    rw [if_neg hne]
    exact ih h.2

/-- A frozen `standard_char_width` is never changed by a later character. -/
theorem updCharMetrics_scw_frozen (fs : ℚ) (c : PChar) (me : FontMetrics) (w : ℚ)
    (h : me.standard_char_width = some w) :
    (updCharMetrics fs c me).standard_char_width = some w := by
  simp only [updCharMetrics]
  split
  · rw [if_neg (by simp [h])]
    exact h
  · exact h

/-- One character bumps `sample_count` exactly when its text is non-empty and
not all whitespace. -/
theorem updCharMetrics_count (fs : ℚ) (c : PChar) (me : FontMetrics) :
    (updCharMetrics fs c me).sample_count =
      me.sample_count +
        (if strTruthyStripped (c.text.getD []) = true then 1 else 0) := by
  simp only [updCharMetrics]
  split
  · split
    · split
      · split
        · rfl
        · rfl
      · rfl
    · rfl
  · simp

/-- Width-range invariant preservation through one character update. -/
theorem updCharMetrics_inv (fs : ℚ) (c : PChar) (me : FontMetrics)
    (hscw : ∀ w : ℚ, me.standard_char_width = some w →
      fs * (2/10) ≤ w ∧ w ≤ fs * (12/10))
    (hsamp : ∀ s ∈ me.char_samples, fs * (2/10) ≤ s.width ∧ s.width ≤ fs * (12/10)) :
    (∀ w : ℚ, (updCharMetrics fs c me).standard_char_width = some w →
      fs * (2/10) ≤ w ∧ w ≤ fs * (12/10)) ∧
    (∀ s ∈ (updCharMetrics fs c me).char_samples,
      fs * (2/10) ≤ s.width ∧ s.width ≤ fs * (12/10)) := by
  simp only [updCharMetrics]
  split
  · split
    · split
      · next hrange =>
        have hsamp2 : ∀ s ∈ me.char_samples ++
            [⟨c.x1 - c.x0, c.text.getD [], me.sample_count⟩],
            fs * (2/10) ≤ s.width ∧ s.width ≤ fs * (12/10) := by
          intro s hs
          rcases List.mem_append.mp hs with h1 | h2
          · exact hsamp s h1
          · simp only [List.mem_singleton] at h2
            subst h2
            exact hrange
        split
        · next hfive =>
          constructor
          · intro w hw
            simp only at hw
            injection hw with hw
            subst hw
            set samples := me.char_samples ++
              [(⟨c.x1 - c.x0, c.text.getD [], me.sample_count⟩ : SampleEntry)] with hsdef
            set widths := List.insertionSort (fun a b : ℚ => a ≤ b)
              (samples.map SampleEntry.width) with hwdef
            have hlen : widths.length = (samples.map SampleEntry.width).length :=
              (List.perm_insertionSort _ _).length_eq
            have hpos : 0 < widths.length := by
              simp only [hlen, List.length_map]
              omega
            have hidx : widths.length / 2 < widths.length := Nat.div_lt_self hpos (by omega)
            rcases hget : widths[widths.length / 2]? with _ | w0
            · rw [List.getElem?_eq_none_iff] at hget
              omega
            · have hmem : w0 ∈ widths := List.getElem?_mem hget
              have hmem2 : w0 ∈ samples.map SampleEntry.width :=
                (List.perm_insertionSort _ _).mem_iff.mp hmem
              rcases List.mem_map.mp hmem2 with ⟨s0, hs0, hw0⟩
              simp only [Option.getD_some]
              rw [← hw0]
              exact hsamp2 s0 hs0
          · intro s hs
            simp only at hs
            simp at hs
        · exact ⟨fun w hw => hscw w hw, hsamp2⟩
      · exact ⟨fun w hw => hscw w hw, fun s hs => hsamp s hs⟩
    · exact ⟨fun w hw => hscw w hw, fun s hs => hsamp s hs⟩
  · exact ⟨hscw, hsamp⟩

/-- Processing one character never changes an already frozen width. -/
theorem procChar_scw_frozen (m : MetricsMap) (c : PChar) (k : FontKey) (w : ℚ)
    (h : scwOf m k = some w) : scwOf (procChar m c) k = some w := by
  simp only [scwOf] at h ⊢
  rcases hlook : mLookup m k with _ | me
  · rw [hlook] at h
    cases h
  · rw [hlook] at h
    have h2 : me.standard_char_width = some w := h
    simp only [procChar]
    by_cases hk : charFontKey c = k
    · have hm1 : ¬ (mLookup m (charFontKey c) = none) := by
        rw [hk, hlook]
        simp
      rw [if_neg hm1, mLookup_mUpdate, if_pos hk, hlook]
      exact updCharMetrics_scw_frozen _ c me w h2
    · rw [mLookup_mUpdate, if_neg hk]
      have hmm : mLookup (if mLookup m (charFontKey c) = none
          then m ++ [(charFontKey c, ⟨(charFontKey c).1, (charFontKey c).2, none, [], 0⟩)]
          else m) k = some me := by
        split
        · rw [mLookup_append, hlook]
        · exact hlook
      rw [hmm]
      exact h2

/-- Processing one character adds one to the variant sample count exactly
for a non-whitespace, non-empty character text. -/
theorem procChar_count (m : MetricsMap) (c : PChar) (k : FontKey) :
    sampleCountOf (procChar m c) k =
      sampleCountOf m k +
        (if charFontKey c = k ∧ strTruthyStripped (c.text.getD []) = true then 1 else 0) := by
  simp only [sampleCountOf, procChar]
  by_cases hk : charFontKey c = k
  · rcases hlook : mLookup m k with _ | me
    · have hm1 : mLookup m (charFontKey c) = none := by rw [hk, hlook]
      rw [if_pos hm1, mLookup_mUpdate, if_pos hk, mLookup_append, hlook, if_pos hk]
      show (updCharMetrics (charFontKey c).2 c ⟨(charFontKey c).1, (charFontKey c).2,
        none, [], 0⟩).sample_count = 0 + _
      rw [updCharMetrics_count]
      by_cases hstrip : strTruthyStripped (c.text.getD []) = true
      · rw [if_pos hstrip, if_pos ⟨hk, hstrip⟩]
      · rw [if_neg hstrip, if_neg (by simp [hstrip])]
    · have hm1 : ¬ (mLookup m (charFontKey c) = none) := by
        rw [hk, hlook]
        simp
      rw [if_neg hm1, mLookup_mUpdate, if_pos hk, hlook]
      show (updCharMetrics (charFontKey c).2 c me).sample_count = me.sample_count + _
      rw [updCharMetrics_count]
      by_cases hstrip : strTruthyStripped (c.text.getD []) = true
      · rw [if_pos hstrip, if_pos ⟨hk, hstrip⟩]
      · rw [if_neg hstrip, if_neg (by simp [hstrip])]
  · have hite : (if charFontKey c = k ∧ strTruthyStripped (c.text.getD []) = true
        then 1 else 0) = 0 := by simp [hk]
    rw [hite, mLookup_mUpdate, if_neg hk]
    have hmm : mLookup (if mLookup m (charFontKey c) = none
        then m ++ [(charFontKey c, ⟨(charFontKey c).1, (charFontKey c).2, none, [], 0⟩)]
        else m) k = mLookup m k := by
      split
      · rw [mLookup_append]
        rcases hlook : mLookup m k with _ | me
        · simp [hk]
        · rfl
      · rfl
    rw [hmm]
    simp


/-- Processing one character preserves the width-range invariant. -/
theorem procChar_inv (m : MetricsMap) (c : PChar) (h : metricsWidthInv m) :
    metricsWidthInv (procChar m c) := by
  have hm1 : metricsWidthInv (if mLookup m (charFontKey c) = none
      then m ++ [(charFontKey c, ⟨(charFontKey c).1, (charFontKey c).2, none, [], 0⟩)]
      else m) := by
    split
    · intro e he
      rcases List.mem_append.mp he with h1 | h2
      · exact h e h1
      · simp only [List.mem_singleton] at h2
        subst h2
        refine ⟨fun w hw => ?_, fun s hs => ?_⟩
        · cases hw
        · simp at hs
    · exact h
  intro e he
  simp only [procChar] at he
  rcases mUpdate_mem _ _ _ e he with h1 | ⟨v, hv, hkey, hval⟩
  · exact hm1 e h1
  · have hventry := hm1 (e.1, v) hv
    rw [hkey] at hventry
    have hupd := updCharMetrics_inv (charFontKey c).2 c v
      (fun w hw => hventry.1 w hw) (fun s hs => hventry.2 s hs)
    rw [hval, hkey]
    exact hupd

/-- `extract_font_metrics` specification lemma: fold form of the counting. -/
theorem extract_count_fold (cs : List PChar) :
    ∀ (m : MetricsMap) (k : FontKey),
      sampleCountOf (cs.foldl procChar m) k =
        sampleCountOf m k +
          (cs.filter (fun c => decide (charFontKey c = k) &&
            strTruthyStripped (c.text.getD []))).length := by
  induction cs with
  | nil => intro m k; simp
  | cons c cs ih =>
    intro m k
    simp only [List.foldl_cons, List.filter_cons]
    rw [ih (procChar m c) k, procChar_count m c k]
    by_cases hc : charFontKey c = k ∧ strTruthyStripped (c.text.getD []) = true
    · rw [if_pos hc]
      have hpc : (decide (charFontKey c = k) && strTruthyStripped (c.text.getD [])) = true := by
        simp [hc.1, hc.2]
      simp only [hpc, if_true, List.length_cons]
      omega
    · rw [if_neg hc]
      have hpc : (decide (charFontKey c = k) && strTruthyStripped (c.text.getD [])) = false := by
        rcases not_and_or.mp hc with h1 | h2
        · simp [h1]
        · simp only [Bool.and_eq_false_iff]
          right
          simpa using h2
      simp [hpc]

/-- Merging never changes an already frozen width in the global map. -/
theorem mergeEntry_scw_frozen (g : MetricsMap) (e : FontKey × FontMetrics)
    (k : FontKey) (w : ℚ) (h : scwOf g k = some w) :
    scwOf (mergeEntry g e) k = some w := by
  simp only [scwOf] at h ⊢
  rcases hlook : mLookup g k with _ | me
  · rw [hlook] at h
    cases h
  · rw [hlook] at h
    have h2 : me.standard_char_width = some w := h
    simp only [mergeEntry]
    by_cases hk : e.1 = k
    · rw [hk, hlook]
      rw [mLookup_mUpdate, if_pos rfl, hlook]
      show (if me.standard_char_width = none ∧ e.2.standard_char_width ≠ none then
          { me with standard_char_width := e.2.standard_char_width }
        else if me.standard_char_width = none then
          { me with char_samples := me.char_samples ++ e.2.char_samples }
        else me).standard_char_width = some w
      rw [if_neg (by simp [h2]), if_neg (by simp [h2])]
      exact h2
    · rcases hlook2 : mLookup g e.1 with _ | ex
      · rw [mLookup_append, hlook]
        exact h2
      · rw [mLookup_mUpdate, if_neg hk, hlook]
        exact h2

/-- Merging one entry adds its `sample_count` at its own key. -/
theorem mergeEntry_count_self (g : MetricsMap) (e : FontKey × FontMetrics) :
    sampleCountOf (mergeEntry g e) e.1 =
      sampleCountOf g e.1 + e.2.sample_count := by
  simp only [sampleCountOf, mergeEntry]
  rcases hlook : mLookup g e.1 with _ | ex
  · rw [mLookup_append, hlook, if_pos rfl]
    simp
  · rw [mLookup_mUpdate, if_pos rfl, hlook]
    show ((if ex.standard_char_width = none ∧ e.2.standard_char_width ≠ none then
          { ex with standard_char_width := e.2.standard_char_width }
        else if ex.standard_char_width = none then
          { ex with char_samples := ex.char_samples ++ e.2.char_samples }
        else ex).sample_count + e.2.sample_count) = ex.sample_count + e.2.sample_count
    split
    · rfl
    · split
      · rfl
      · rfl

/-- Merging one entry leaves other keys' `sample_count` unchanged. -/
theorem mergeEntry_count_other (g : MetricsMap) (e : FontKey × FontMetrics)
    (k : FontKey) (hk : ¬ (e.1 = k)) :
    sampleCountOf (mergeEntry g e) k = sampleCountOf g k := by
  simp only [sampleCountOf, mergeEntry]
  rcases hlook : mLookup g e.1 with _ | ex
  · rw [mLookup_append]
    rcases hlook2 : mLookup g k with _ | me
    · rw [if_neg hk]
    · rfl
  · rw [mLookup_mUpdate, if_neg hk]

/-- Merging a page map with pairwise distinct keys adds its counts to the
running global counts. -/
theorem merge_count (p : MetricsMap) :
    ∀ (g : MetricsMap) (k : FontKey), (p.map Prod.fst).Nodup →
      sampleCountOf (merge_font_metrics g p) k =
        sampleCountOf g k + sampleCountOf p k := by
  induction p with
  | nil => intro g k _; simp [merge_font_metrics, sampleCountOf, mLookup]
  | cons e p ih =>
    intro g k hnd
    simp only [List.map_cons, List.nodup_cons] at hnd
    have hstep : merge_font_metrics g (e :: p) =
        merge_font_metrics (mergeEntry g e) p := rfl
    rw [hstep, ih (mergeEntry g e) k hnd.2]
    by_cases hk : e.1 = k
    · subst hk
      rw [mergeEntry_count_self]
      have hpk : sampleCountOf p e.1 = 0 := by
        simp only [sampleCountOf]
        rw [mLookup_eq_none_of_not_mem p e.1 hnd.1]
      have hek : sampleCountOf (e :: p) e.1 = e.2.sample_count := by
        simp [sampleCountOf, mLookup]
      rw [hpk, hek]
      omega
    · rw [mergeEntry_count_other g e k hk]
      have hek : sampleCountOf (e :: p) k = sampleCountOf p k := by
        simp [sampleCountOf, mLookup, hk]
      rw [hek]

/-- Merge preserves frozen widths of the global map, over a whole page map. -/
theorem merge_scw_frozen (p : MetricsMap) :
    ∀ (g : MetricsMap) (k : FontKey) (w : ℚ), scwOf g k = some w →
      scwOf (merge_font_metrics g p) k = some w := by
  induction p with
  | nil => intro g k w h; exact h
  | cons e p ih =>
    intro g k w h
    exact ih (mergeEntry g e) k w (mergeEntry_scw_frozen g e k w h)

/-- Merging one entry preserves the width-range invariant. -/
theorem mergeEntry_inv (g : MetricsMap) (e : FontKey × FontMetrics)
    (hg : metricsWidthInv g)
    (he : (∀ w : ℚ, e.2.standard_char_width = some w →
        e.1.2 * (2/10) ≤ w ∧ w ≤ e.1.2 * (12/10)) ∧
      (∀ s ∈ e.2.char_samples, e.1.2 * (2/10) ≤ s.width ∧ s.width ≤ e.1.2 * (12/10))) :
    metricsWidthInv (mergeEntry g e) := by
  simp only [mergeEntry]
  rcases hlook : mLookup g e.1 with _ | ex
  · intro e' he'
    rcases List.mem_append.mp he' with h1 | h2
    · exact hg e' h1
    · simp only [List.mem_singleton] at h2
      subst h2
      exact he
  · have hex := hg (e.1, ex) (mLookup_mem g e.1 ex hlook)
    simp only at hex
    intro e' he'
    rcases mUpdate_mem _ _ _ e' he' with h1 | ⟨v, hv, hkey, hval⟩
    · exact hg e' h1
    · rw [hval, hkey]
      constructor
      · intro w hw
        revert hw
        split
        · exact fun hw => he.1 w hw
        · split
          · exact fun hw => hex.1 w hw
          · exact fun hw => hex.1 w hw
      · intro s hs
        revert hs
        split
        · exact fun hs => hex.2 s hs
        · split
          · intro hs
            rcases List.mem_append.mp hs with h1 | h2
            · exact hex.2 s h1
            · exact he.2 s h2
          · exact fun hs => hex.2 s hs

/-- Merging a whole page map preserves the width-range invariant. -/
theorem merge_inv (p : MetricsMap) :
    ∀ g : MetricsMap, metricsWidthInv g → metricsWidthInv p →
      metricsWidthInv (merge_font_metrics g p) := by
  induction p with
  | nil => intro g hg _; exact hg
  | cons e p ih =>
    intro g hg hp
    have he := hp e (List.mem_cons_self _ _)
    have hp2 : metricsWidthInv p := fun x hx => hp x (List.mem_cons.mpr (Or.inr hx))
    exact ih (mergeEntry g e) (mergeEntry_inv g e hg he) hp2

/-- Folding more characters never changes an already frozen width. -/
theorem foldl_procChar_scw_frozen (cs : List PChar) :
    ∀ (m : MetricsMap) (k : FontKey) (w : ℚ), scwOf m k = some w →
      scwOf (cs.foldl procChar m) k = some w := by
  induction cs with
  | nil => intro m k w h; exact h
  | cons c cs ih =>
    intro m k w h
    exact ih (procChar m c) k w (procChar_scw_frozen m c k w h)

/-- The extracted metrics map satisfies the width-range invariant. -/
theorem extract_font_metrics_inv (cs : List PChar) :
    metricsWidthInv (extract_font_metrics cs) := by
  have hfold : ∀ m : MetricsMap, metricsWidthInv m →
      metricsWidthInv (cs.foldl procChar m) := by
    induction cs with
    | nil => intro m hm; exact hm
    | cons c cs ih => intro m hm; exact ih (procChar m c) (procChar_inv m c hm)
  exact hfold [] (fun e he => by simp at he)

/-- C7, confirmed: once `standard_char_width` is frozen for a key, no later
character of the same collection and no merge of per-page maps changes it;
every frozen width produced by collection lies within
`[0.2*font_size, 1.2*font_size]` of its variant's font size, and merging
preserves that range invariant. -/
theorem standard_char_width_write_once :
    (∀ (cs₁ cs₂ : List PChar) (k : FontKey) (w : ℚ),
      scwOf (extract_font_metrics cs₁) k = some w →
      scwOf (extract_font_metrics (cs₁ ++ cs₂)) k = some w) ∧
    (∀ (g p : MetricsMap) (k : FontKey) (w : ℚ),
      scwOf g k = some w → scwOf (merge_font_metrics g p) k = some w) ∧
    (∀ (cs : List PChar) (k : FontKey) (me : FontMetrics) (w : ℚ),
      mLookup (extract_font_metrics cs) k = some me →
      me.standard_char_width = some w →
      k.2 * (2/10) ≤ w ∧ w ≤ k.2 * (12/10)) ∧
    (∀ g p : MetricsMap, metricsWidthInv g → metricsWidthInv p →
      metricsWidthInv (merge_font_metrics g p)) := by
  refine ⟨?_, ?_, ?_, ?_⟩
  · intro cs₁ cs₂ k w h
    unfold extract_font_metrics at h ⊢
    rw [List.foldl_append]
    exact foldl_procChar_scw_frozen cs₂ _ k w h
  · intro g p k w h
    exact merge_scw_frozen p g k w h
  · intro cs k me w hlook hw
    have hinv := extract_font_metrics_inv cs (k, me) (mLookup_mem _ k me hlook)
    exact hinv.1 w hw
  · intro g p hg hp
    exact merge_inv p g hg hp

/-- C7, witness: a frozen width `6` in the global map survives a merge with a
page map carrying a different width for the same key. -/
theorem standard_char_width_write_once_witness :
    scwOf [(("F", (10:ℚ)), ⟨"F", 10, some 6, [], 5⟩)] ("F", 10) = some 6 ∧
      scwOf (merge_font_metrics [(("F", (10:ℚ)), ⟨"F", 10, some 6, [], 5⟩)]
        [(("F", (10:ℚ)), ⟨"F", 10, some 7, [], 3⟩)]) ("F", 10) = some 6 :=
  ⟨by simp [scwOf, mLookup], standard_char_width_write_once.2.1 _ _ ("F", 10) 6
    (by simp [scwOf, mLookup])⟩

/-- C10, amended: `sample_count` counts exactly the characters of the variant
whose text is non-empty and not all whitespace (whitespace characters are not
counted, contrary to the claim), whether or not the width sample is accepted;
counts sum across merged page maps with distinct keys. -/
theorem sample_count_nonwhitespace :
    (∀ (cs : List PChar) (k : FontKey),
      sampleCountOf (extract_font_metrics cs) k =
        (cs.filter (fun c => decide (charFontKey c = k) &&
          strTruthyStripped (c.text.getD []))).length) ∧
    (∀ (g p : MetricsMap) (k : FontKey), (p.map Prod.fst).Nodup →
      sampleCountOf (merge_font_metrics g p) k =
        sampleCountOf g k + sampleCountOf p k) := by
  constructor
  · intro cs k
    have h := extract_count_fold cs [] k
    simpa [sampleCountOf, mLookup] using h
  · intro g p k h
    exact merge_count p g k h

/-- C10, counterexample to the claim as stated: a lone whitespace character is
seen but does not increment `sample_count` (it stays `0`, not `1`). -/
theorem sample_count_skips_whitespace :
    mLookup (extract_font_metrics [⟨0, 0, 6, 10, some [' '], some "F", some 10⟩])
        ("F", 10) = some ⟨"F", 10, none, [], 0⟩ ∧
      sampleCountOf (extract_font_metrics [⟨0, 0, 6, 10, some [' '], some "F", some 10⟩])
        ("F", 10) = 0 := by
  constructor <;>
    norm_num +decide [extract_font_metrics, procChar, charFontKey, mLookup, mUpdate,
      updCharMetrics, strTruthyStripped, sampleCountOf, scwOf]

/-- C10, witness: the merge-count conjunct applied to concrete one-entry
maps. -/
theorem sample_count_nonwhitespace_witness :
    (([(("F", (10:ℚ)), (⟨"F", 10, some 6, [], 5⟩ : FontMetrics))].map Prod.fst).Nodup) ∧
      sampleCountOf (merge_font_metrics
          [(("G", (10:ℚ)), ⟨"G", 10, none, [], 2⟩)]
          [(("F", (10:ℚ)), ⟨"F", 10, some 6, [], 5⟩)]) ("F", 10) =
        sampleCountOf [(("G", (10:ℚ)), ⟨"G", 10, none, [], 2⟩)] ("F", 10) +
          sampleCountOf [(("F", (10:ℚ)), ⟨"F", 10, some 6, [], 5⟩)] ("F", 10) :=
  ⟨by simp, sample_count_nonwhitespace.2 _ _ ("F", 10) (by simp)⟩
